import Mathlib

/-!
# Heap's algorithm (`Rcpp/heaps.cpp`)

Shallow embedding of `printArray` and `heaps_algorithm`, with proofs that the iterative
loop terminates, replays recursive Heap's algorithm, and emits every index permutation of
its input exactly once.
-/

namespace Heaps

/-- Text written by `cout << x` for an `int` x: its decimal rendering. -/
def showInt (x : Int) : String := toString x

/-- One iteration of the `for` loop of `printArray`: element `i` is written followed by a
space when `i < n - 1`, and followed by the line terminator otherwise.  Reading `a[i]`
outside the array yields `none`. -/
def printElem (a : List Int) (n : Nat) (out : String) (i : Nat) : Option String :=
  match a[i]? with
  | none => none
  | some x =>
    if (i : Int) < (n : Int) - 1 then some (out ++ showInt x ++ " ")
    else some (out ++ showInt x ++ "\n")

/-- Function `printArray(a, n)`: the loop `for (i = 0; i < n; i++)` appending to the text
`out` already written. -/
def printArray (a : List Int) (n : Nat) (out : String) : Option String :=
  (List.range n).foldlM (printElem a n) out

/-- Function `std::swap(a[p], a[q])` on the array `a`; `none` when an index is outside. -/
def swapAt (a : List Int) (p q : Nat) : Option (List Int) :=
  match a[p]?, a[q]? with
  | some x, some y => some ((a.set p y).set q x)
  | _, _ => none

/-- State of `heaps_algorithm`: the array `a`, the control array `c`, the cursor `i`, the
text written so far, and two ghost fields: the argument of every `printArray` call so
far (`ems`) and the number of swaps performed so far (`swaps`). -/
structure HState where
  a : List Int
  c : List Nat
  i : Nat
  out : String
  ems : List (List Int)
  swaps : Nat
deriving DecidableEq

/-- State at the first evaluation of the loop condition: `c` is all zeros, the array has
been printed once, the cursor is 0. -/
def initState (a : List Int) (n : Nat) : Option HState :=
  match printArray a n "" with
  | none => none
  | some out =>
    some { a := a, c := List.replicate n 0, i := 0, out := out, ems := [a.take n], swaps := 0 }

/-- Body of the `while (i < n)` loop, lines 35-50. -/
def loopBody (n : Nat) (s : HState) : Option HState :=
  match s.c[s.i]? with
  | none => none
  | some ci =>
    if ci < s.i then
      match (if s.i % 2 = 1 then swapAt s.a ci s.i else swapAt s.a 0 s.i) with
      | none => none
      | some a1 =>
        match printArray a1 n s.out with
        | none => none
        | some out1 =>
          some { a := a1, c := s.c.set s.i (ci + 1), i := 0, out := out1,
                 ems := s.ems ++ [a1.take n], swaps := s.swaps + 1 }
    else
      some { s with c := s.c.set s.i 0, i := s.i + 1 }

/-- The `while (i < n)` loop, run for at most `fuel` iterations; `none` when the fuel runs
out before the loop exits, or when an array access is out of range. -/
def whileLoop (n : Nat) : Nat → HState → Option HState
  | 0, s => if s.i < n then none else some s
  | fuel + 1, s =>
    if s.i < n then
      match loopBody n s with
      | none => none
      | some s1 => whileLoop n fuel s1
    else some s

/-- Number of loop iterations that take the cursor from 0 to `m` when the control entries
below `m` start at zero: `loopBound n` is the exact number of iterations of a whole run. -/
def loopBound : Nat → Nat
  | 0 => 0
  | m + 1 => (m + 1) * (loopBound m + 1)

/-- Function `heaps_algorithm(a, n)`: the state when the loop exits.  The loop is given
`loopBound n` iterations of fuel, which is exactly what it uses when `a` holds `n`
elements (`heaps_algorithm_eq`); extra fuel does not change the state
(`whileLoop_of_runSteps`). -/
def heaps_algorithm (a : List Int) (n : Nat) : Option HState :=
  match initState a n with
  | none => none
  | some s => whileLoop n (loopBound n) s

/-- Total variant of the swap: the array is left as it is when an index is outside. -/
def swapPos (a : List Int) (p q : Nat) : List Int := (swapAt a p q).getD a

/-- The `for j = 0 .. k-2` loop of recursive Heap's algorithm at size `k`: `cnt` rounds
remain, the next one has counter `j`.  Each round swaps `A[j]` with `A[k-1]` when `k` is
even and `A[0]` with `A[k-1]` when `k` is odd, then runs `sub` (the generator of size
`k-1`).  Returns the emissions and the final array. -/
def genLoop (sub : List Int → List (List Int) × List Int) (k : Nat) :
    Nat → Nat → List Int → List (List Int) × List Int
  | 0, _, A => ([], A)
  | cnt + 1, j, A =>
    let A1 := if k % 2 = 0 then swapPos A j (k - 1) else swapPos A 0 (k - 1)
    let r := sub A1
    let rest := genLoop sub k cnt (j + 1) r.2
    (r.1 ++ rest.1, rest.2)

/-- Recursive Heap's algorithm `gen(k, A)`, worded as the specification describes it,
returning the emissions in order and the final array: emit `A` when `k ≤ 1`; otherwise run
`gen(k-1, A)`, then for `j = 0 .. k-2` swap and run `gen(k-1, A)` again. -/
def gen : Nat → List Int → List (List Int) × List Int
  | 0, A => ([A], A)
  | 1, A => ([A], A)
  | k + 2, A =>
    let r := gen (k + 1) A
    let rest := genLoop (gen (k + 1)) (k + 2) (k + 1) 0 r.2
    (r.1 ++ rest.1, rest.2)

/-- Rounds `j, j+1, ..., j+cnt-1` of the swaps rooted at cursor value `m`: each round
swaps position `m` with position `j` (odd `m`) or 0 (even `m`), emits, then replays `sub`
(the emissions produced while the cursor stays below `m`). -/
def rounds (sub : List Int → List (List Int) × List Int) (m : Nat) :
    Nat → Nat → List Int → List (List Int) × List Int
  | 0, _, A => ([], A)
  | cnt + 1, j, A =>
    let A1 := swapPos A (if m % 2 = 1 then j else 0) m
    let r := sub A1
    let rest := rounds sub m cnt (j + 1) r.2
    (A1 :: (r.1 ++ rest.1), rest.2)

/-- Emissions made, and final array reached, while the cursor climbs from 0 to `m` with
the control entries below `m` starting at zero. -/
def genTail : Nat → List Int → List (List Int) × List Int
  | 0, A => ([], A)
  | m + 1, A =>
    let r := genTail m A
    let rest := rounds (genTail m) m m 0 r.2
    (r.1 ++ rest.1, rest.2)

/-- Position exchange: the index read at `x` after positions `p` and `q` were swapped. -/
def swapN (p q x : Nat) : Nat := if x = p then q else if x = q then p else x

/-- Partner of position `m` in round `t`. -/
def sig (m t : Nat) : Nat := if m % 2 = 1 then t else 0

/-- Closed form of the net rearrangement of a climb to an odd cursor value `m`: positions
0 and `m - 1` are exchanged. -/
def Qodd (m x : Nat) : Nat := if x = 0 then m - 1 else if x = m - 1 then 0 else x

/-- Closed form of the net rearrangement of a climb to an even cursor value `m`. -/
def Qeven (m x : Nat) : Nat :=
  if m ≤ x then x else if x = m - 1 then 0 else if x = m - 2 then m - 1
  else if x = 0 then m - 3 else if x = 1 then m - 2 else x - 1

/-- Net rearrangement of a full climb to cursor `m`: the final array holds at position `x`
the element that started at position `Qc m x`. -/
def Qc (m x : Nat) : Nat := if m % 2 = 1 then Qodd m x else Qeven m x

/-- Odd `m`: original position of the element found at position `m` when round `t` of the
swaps rooted at `m` starts. -/
def Lodd (m t : Nat) : Nat :=
  if t = 0 then m else if t = 1 then m - 1 else if t = m then 0 else t - 1

/-- Odd `m`: original position of the element found at position `x` when round `t` of the
swaps rooted at `m` starts. -/
def Rodd (m t x : Nat) : Nat :=
  if m < x then x else if x = m then Lodd m t else if t = 0 then x
  else if x = 0 then (if t % 2 = 1 then m else 0)
  else if x = m - 1 then (if t = m then m - 2 else if t % 2 = 1 then 0 else m)
  else if x < t then Lodd m x else x

/-- Even `m`: the positions `0 .. m` listed in the order in which one round moves them
(a single cycle); the listing is its own inverse. -/
def ord (m j : Nat) : Nat :=
  if j = 0 then m else if j = m then 0 else if j = m - 1 then m - 1
  else if j = m - 2 then m - 2 else m - 2 - j

/-- Reduction of `y < 2 * (m + 1)` modulo `m + 1`. -/
def cyc (m y : Nat) : Nat := if y ≤ m then y else y - (m + 1)

/-- Even `m`: original position of the element found at position `x` when round `t` of the
swaps rooted at `m` starts. -/
def Reven (m t x : Nat) : Nat := if m < x then x else ord m (cyc m (ord m x + t))

/-- Array at the start of round `t` of the swaps rooted at `m`: position `x` holds the
element that started at position `Rc m t x`. -/
def Rc (m t x : Nat) : Nat := if m % 2 = 1 then Rodd m t x else Reven m t x

/-- What a full climb of the cursor to `m` does to any array of length at least `m`. -/
def ClimbSpec (m : Nat) : Prop :=
  ∀ A : List Int, m ≤ A.length →
    (genTail m A).2.Perm A ∧ (∀ x, (genTail m A).2[x]? = A[Qc m x]?) ∧
    (∀ e ∈ (genTail m A).1, e.Perm A ∧ ∀ x, m ≤ x → e[x]? = A[x]?) ∧
    (A.Nodup → (A :: (genTail m A).1).Nodup) ∧
    (genTail m A).1.length + 1 = m.factorial

/-- Line for one sequence, in the words of the specification: the decimal renderings of
the elements joined by single spaces, followed by exactly one line terminator. -/
def lineOf (xs : List Int) : String := " ".intercalate (xs.map showInt) ++ "\n"

/-- Concatenation, in order, of one line per sequence. -/
def textOf : List (List Int) → String
  | [] => ""
  | e :: es => lineOf e ++ textOf es

/-- Exactly `k` iterations of the loop body, each entered with `i < n`. -/
def runSteps (n : Nat) : Nat → HState → Option HState
  | 0, s => some s
  | k + 1, s => if s.i < n then (loopBody n s).bind (runSteps n k) else none

/-- A climb of the cursor from 0 to `m`, as run by the loop. -/
def ClimbRun (n m : Nat) : Prop :=
  ∀ (a : List Int) (cs : List Nat) (out : String) (ems : List (List Int)) (swaps : Nat),
    a.length = n → m ≤ n → (∀ k, k < m → cs[k]? = some 0) →
      runSteps n (loopBound m) ⟨a, cs, 0, out, ems, swaps⟩ =
        some ⟨(genTail m a).2, cs, m, out ++ textOf (genTail m a).1,
          ems ++ (genTail m a).1, swaps + (genTail m a).1.length⟩

/-- Sequence `Q` is `P` with the contents of two positions `p < q < n` exchanged. -/
def SwapOf (n : Nat) (P Q : List Int) : Prop :=
  P.length = n ∧ Q.length = n ∧
    ∃ p q, p < q ∧ q < n ∧ Q[p]? = P[q]? ∧ Q[q]? = P[p]? ∧
      ∀ k, k ≠ p → k ≠ q → Q[k]? = P[k]?

/-- Invariant of the loop: the array has length `n`, it is the last sequence emitted, and
each emission is the previous one with two positions exchanged. -/
def EmitInv (n : Nat) (s : HState) : Prop :=
  s.a.length = n ∧ s.ems.getLast? = some s.a ∧ List.Chain' (SwapOf n) s.ems

/-- The index sequence `0, 1, ..., n-1` as an array of `int`. -/
def indexSeq (n : Nat) : List Int := (List.range n).map Int.ofNat

/-- Sequence `S` read through a list of indices. -/
def readThrough (S : List Int) (p : List Nat) : List Int := p.map (fun j => S.getD j 0)

/-- State `s` is met at some evaluation of the loop condition during the run on `S`: it is
the state after `k` iterations of the loop body from the initial state. -/
def Reachable (S : List Int) (s : HState) : Prop :=
  ∃ s0 k, initState S S.length = some s0 ∧ runSteps S.length k s0 = some s

/-- Value of the control array read as a factorial-base counter at cursor `s.i`:
`i! + Σ_{k = i}^{n-1} c[k] * k!`. -/
def counterValue (n : Nat) (s : HState) : Nat :=
  s.i.factorial + Finset.sum (Finset.Ico s.i n) (fun k => s.c.getD k 0 * k.factorial)

/-- Invariant of the loop at every evaluation of its condition. -/
def LoopInv (n : Nat) (s : HState) : Prop :=
  s.a.length = n ∧ s.c.length = n ∧ s.i ≤ n ∧ (∀ k v : Nat, s.c[k]? = some v → v ≤ k) ∧
    (∀ j, j < s.i → s.c[j]? = some 0) ∧ s.ems.length = s.swaps + 1 ∧
    s.ems.length = counterValue n s

/-- White-space characters skipped by the `%i` directive of `sscanf` (`isspace` in the C
locale: space, and the characters 9 to 13).  The conversion is library code, not part of
the repository; it is modelled from the C standard (7.21.6.2, 7.22.1.4). -/
def isSpaceC (c : Char) : Bool := c.toNat = 32 || (9 ≤ c.toNat && c.toNat ≤ 13)

/-- Value of a character as a digit of a base up to 16: `0-9`, `a-f`, `A-F`. -/
def digitVal (c : Char) : Option Nat :=
  if 48 ≤ c.toNat ∧ c.toNat ≤ 57 then some (c.toNat - 48)
  else if 97 ≤ c.toNat ∧ c.toNat ≤ 102 then some (c.toNat - 87)
  else if 65 ≤ c.toNat ∧ c.toNat ≤ 70 then some (c.toNat - 55)
  else none

/-- Value of a character as a digit of the given base, `none` when it is not one. -/
def digitIn (base : Nat) (c : Char) : Option Nat :=
  match digitVal c with
  | some d => if d < base then some d else none
  | none => none

/-- Value of the longest run of digits of the base at the head of the text, continuing the
value `acc` read so far. -/
def readDigits (base : Nat) : List Char → Nat → Nat
  | [], acc => acc
  | c :: cs, acc =>
    match digitIn base c with
    | some d => readDigits base cs (base * acc + d)
    | none => acc

/-- Magnitude read by `%i` after the optional sign, with the base detected as for
`strtol` with base 0: hexadecimal after `0x` or `0X`, octal after a leading `0`, decimal
otherwise.  `none` is a matching failure. -/
def scanMagnitude : List Char → Option Nat
  | [] => none
  | c :: cs =>
    if c.toNat = 48 then
      match cs with
      | [] => some 0
      | x :: rest =>
        if x.toNat = 120 ∨ x.toNat = 88 then
          match rest with
          | [] => none
          | h :: r =>
            match digitIn 16 h with
            | some d => some (readDigits 16 r d)
            | none => none
        else some (readDigits 8 cs 0)
    else
      match digitIn 10 c with
      | some d => some (readDigits 10 cs d)
      | none => none

/-- Sign applied to the magnitude read. -/
def applySign (neg : Bool) (m : Option Nat) : Option Int :=
  match m with
  | none => none
  | some v => if neg then some (-(v : Int)) else some (v : Int)

/-- Optionally signed integer read by `%i`. -/
def scanSigned : List Char → Option Int
  | [] => none
  | c :: cs =>
    if c.toNat = 45 then applySign true (scanMagnitude cs)
    else if c.toNat = 43 then applySign false (scanMagnitude cs)
    else applySign false (scanMagnitude (c :: cs))

/-- Call `sscanf(arg, "%i", &x)`: the value stored in the `int` `x`; `none` when nothing is
stored (matching failure) or the value read does not fit an `int` (undefined). -/
def sscanf_i (arg : String) : Option Int :=
  match scanSigned (arg.data.dropWhile isSpaceC) with
  | none => none
  | some v => if -2147483648 ≤ v ∧ v ≤ 2147483647 then some v else none

/-- The `for` loop of `main`: `a[i]` is read from `argv[i + 1]`, for `i = 0 .. n-1`. -/
def parseArgs : List String → Option (List Int)
  | [] => some []
  | arg :: rest =>
    match sscanf_i arg with
    | none => none
    | some v =>
      match parseArgs rest with
      | none => none
      | some vs => some (v :: vs)

/-- Function `main(argc, argv)`: `n = argc - 1`, the array is read from the arguments after
the program name, then `heaps_algorithm(a, n)` runs.  `none` when `argc = 0` (an array of
negative size), when an element is left without a value, or when the run fails. -/
def main (argv : List String) : Option HState :=
  match argv with
  | [] => none
  | _ :: args =>
    match parseArgs args with
    | none => none
    | some a => heaps_algorithm a args.length

/-- Base-10 value of a run of decimal digits. -/
def decimalValue (cs : List Char) : Nat :=
  cs.foldl (fun acc c => 10 * acc + (c.toNat - 48)) 0

/-- Base-10 value of an argument text, in the words of the specification: an optional
sign followed by decimal digits, read in base 10. -/
def base10 (arg : String) : Int :=
  match arg.data with
  | [] => 0
  | c :: cs =>
    if c.toNat = 45 then -(decimalValue cs : Int)
    else if c.toNat = 43 then (decimalValue cs : Int)
    else (decimalValue (c :: cs) : Int)

/-- Decimal digit. -/
def isDec (c : Char) : Bool := 48 ≤ c.toNat && c.toNat ≤ 57

/-- A nonempty run of decimal digits without a leading zero, or the single digit `0`. -/
def plainDigits : List Char → Bool
  | [] => false
  | c :: rest => (c :: rest).all isDec && (c.toNat != 48 || rest.isEmpty)

/-- An argument that is a decimal numeral without a leading zero, optionally signed, whose
value fits an `int`. -/
def plainDecimal (arg : String) : Bool :=
  (match arg.data with
    | [] => false
    | c :: cs => if c.toNat = 45 ∨ c.toNat = 43 then plainDigits cs else plainDigits (c :: cs)) &&
  decide (-2147483648 ≤ base10 arg ∧ base10 arg ≤ 2147483647)

/-! ### Arithmetic of the closed forms -/

theorem swapN_fst (p q x : Nat) (h : x = p) :
    swapN p q x = q := by
  unfold swapN
  rw [if_pos (by omega : x = p)]

theorem swapN_snd (p q x : Nat) (h : x ≠ p ∧ x = q) :
    swapN p q x = p := by
  unfold swapN
  rw [if_neg (by omega : ¬(x = p)),
    if_pos (by omega : x = q)]

theorem swapN_other (p q x : Nat) (h : x ≠ p ∧ x ≠ q) :
    swapN p q x = x := by
  unfold swapN
  rw [if_neg (by omega : ¬(x = p)),
    if_neg (by omega : ¬(x = q))]

theorem Qodd_zero (m x : Nat) (h : x = 0) :
    Qodd m x = m - 1 := by
  unfold Qodd
  rw [if_pos (by omega : x = 0)]

theorem Qodd_last (m x : Nat) (h : x ≠ 0 ∧ x = m - 1) :
    Qodd m x = 0 := by
  unfold Qodd
  rw [if_neg (by omega : ¬(x = 0)),
    if_pos (by omega : x = m - 1)]

theorem Qodd_other (m x : Nat) (h : x ≠ 0 ∧ x ≠ m - 1) :
    Qodd m x = x := by
  unfold Qodd
  rw [if_neg (by omega : ¬(x = 0)),
    if_neg (by omega : ¬(x = m - 1))]

theorem Qeven_ge (m x : Nat) (h : m ≤ x) :
    Qeven m x = x := by
  unfold Qeven
  rw [if_pos (by omega : m ≤ x)]

theorem Qeven_last (m x : Nat) (h : x < m ∧ x = m - 1) :
    Qeven m x = 0 := by
  unfold Qeven
  rw [if_neg (by omega : ¬(m ≤ x)),
    if_pos (by omega : x = m - 1)]

theorem Qeven_pen (m x : Nat) (h : x < m ∧ x ≠ m - 1 ∧ x = m - 2) :
    Qeven m x = m - 1 := by
  unfold Qeven
  rw [if_neg (by omega : ¬(m ≤ x)),
    if_neg (by omega : ¬(x = m - 1)),
    if_pos (by omega : x = m - 2)]

theorem Qeven_zero (m x : Nat) (h : x < m ∧ x ≠ m - 1 ∧ x ≠ m - 2 ∧ x = 0) :
    Qeven m x = m - 3 := by
  unfold Qeven
  rw [if_neg (by omega : ¬(m ≤ x)),
    if_neg (by omega : ¬(x = m - 1)),
    if_neg (by omega : ¬(x = m - 2)),
    if_pos (by omega : x = 0)]

theorem Qeven_one (m x : Nat) (h : x < m ∧ x ≠ m - 1 ∧ x ≠ m - 2 ∧ x = 1) :
    Qeven m x = m - 2 := by
  unfold Qeven
  rw [if_neg (by omega : ¬(m ≤ x)),
    if_neg (by omega : ¬(x = m - 1)),
    if_neg (by omega : ¬(x = m - 2)),
    if_neg (by omega : ¬(x = 0)),
    if_pos (by omega : x = 1)]

theorem Qeven_mid (m x : Nat) (h : x < m ∧ x ≠ m - 1 ∧ x ≠ m - 2 ∧ 2 ≤ x) :
    Qeven m x = x - 1 := by
  unfold Qeven
  rw [if_neg (by omega : ¬(m ≤ x)),
    if_neg (by omega : ¬(x = m - 1)),
    if_neg (by omega : ¬(x = m - 2)),
    if_neg (by omega : ¬(x = 0)),
    if_neg (by omega : ¬(x = 1))]

theorem Lodd_zero (m t : Nat) (h : t = 0) :
    Lodd m t = m := by
  unfold Lodd
  rw [if_pos (by omega : t = 0)]

theorem Lodd_one (m t : Nat) (h : t = 1) :
    Lodd m t = m - 1 := by
  unfold Lodd
  rw [if_neg (by omega : ¬(t = 0)),
    if_pos (by omega : t = 1)]

theorem Lodd_top (m t : Nat) (h : 2 ≤ t ∧ t = m) :
    Lodd m t = 0 := by
  unfold Lodd
  rw [if_neg (by omega : ¬(t = 0)),
    if_neg (by omega : ¬(t = 1)),
    if_pos (by omega : t = m)]

theorem Lodd_mid (m t : Nat) (h : 2 ≤ t ∧ t ≠ m) :
    Lodd m t = t - 1 := by
  unfold Lodd
  rw [if_neg (by omega : ¬(t = 0)),
    if_neg (by omega : ¬(t = 1)),
    if_neg (by omega : ¬(t = m))]

theorem ord_zero (m j : Nat) (h : j = 0) :
    ord m j = m := by
  unfold ord
  rw [if_pos (by omega : j = 0)]

theorem ord_top (m j : Nat) (h : j ≠ 0 ∧ j = m) :
    ord m j = 0 := by
  unfold ord
  rw [if_neg (by omega : ¬(j = 0)),
    if_pos (by omega : j = m)]

theorem ord_pen (m j : Nat) (h : j ≠ 0 ∧ j ≠ m ∧ j = m - 1) :
    ord m j = m - 1 := by
  unfold ord
  rw [if_neg (by omega : ¬(j = 0)),
    if_neg (by omega : ¬(j = m)),
    if_pos (by omega : j = m - 1)]

theorem ord_ante (m j : Nat) (h : j ≠ 0 ∧ j ≠ m ∧ j ≠ m - 1 ∧ j = m - 2) :
    ord m j = m - 2 := by
  unfold ord
  rw [if_neg (by omega : ¬(j = 0)),
    if_neg (by omega : ¬(j = m)),
    if_neg (by omega : ¬(j = m - 1)),
    if_pos (by omega : j = m - 2)]

theorem ord_mid (m j : Nat) (h : j ≠ 0 ∧ j ≠ m ∧ j ≠ m - 1 ∧ j ≠ m - 2) :
    ord m j = m - 2 - j := by
  unfold ord
  rw [if_neg (by omega : ¬(j = 0)),
    if_neg (by omega : ¬(j = m)),
    if_neg (by omega : ¬(j = m - 1)),
    if_neg (by omega : ¬(j = m - 2))]

theorem cyc_le (m y : Nat) (h : y ≤ m) :
    cyc m y = y := by
  unfold cyc
  rw [if_pos (by omega : y ≤ m)]

theorem cyc_gt (m y : Nat) (h : m < y) :
    cyc m y = y - (m + 1) := by
  unfold cyc
  rw [if_neg (by omega : ¬(y ≤ m))]

theorem Rodd_gt (m t x : Nat) (h : m < x) :
    Rodd m t x = x := by
  unfold Rodd
  rw [if_pos (by omega : m < x)]

theorem Rodd_top (m t x : Nat) (h : x = m) :
    Rodd m t x = Lodd m t := by
  unfold Rodd
  rw [if_neg (by omega : ¬(m < x)),
    if_pos (by omega : x = m)]

theorem Rodd_start (m t x : Nat) (h : x < m ∧ t = 0) :
    Rodd m t x = x := by
  unfold Rodd
  rw [if_neg (by omega : ¬(m < x)),
    if_neg (by omega : ¬(x = m)),
    if_pos (by omega : t = 0)]

theorem Rodd_zero_odd (m t x : Nat) (h : x < m ∧ t ≠ 0 ∧ x = 0 ∧ t % 2 = 1) :
    Rodd m t x = m := by
  unfold Rodd
  rw [if_neg (by omega : ¬(m < x)),
    if_neg (by omega : ¬(x = m)),
    if_neg (by omega : ¬(t = 0)),
    if_pos (by omega : x = 0),
    if_pos (by omega : t % 2 = 1)]

theorem Rodd_zero_even (m t x : Nat) (h : x < m ∧ t ≠ 0 ∧ x = 0 ∧ t % 2 = 0) :
    Rodd m t x = 0 := by
  unfold Rodd
  rw [if_neg (by omega : ¬(m < x)),
    if_neg (by omega : ¬(x = m)),
    if_neg (by omega : ¬(t = 0)),
    if_pos (by omega : x = 0),
    if_neg (by omega : ¬(t % 2 = 1))]

theorem Rodd_pen_top (m t x : Nat) (h : x < m ∧ t ≠ 0 ∧ x ≠ 0 ∧ x = m - 1 ∧ t = m) :
    Rodd m t x = m - 2 := by
  unfold Rodd
  rw [if_neg (by omega : ¬(m < x)),
    if_neg (by omega : ¬(x = m)),
    if_neg (by omega : ¬(t = 0)),
    if_neg (by omega : ¬(x = 0)),
    if_pos (by omega : x = m - 1),
    if_pos (by omega : t = m)]

theorem Rodd_pen_odd (m t x : Nat) (h : x < m ∧ t ≠ 0 ∧ x ≠ 0 ∧ x = m - 1 ∧ t ≠ m ∧ t % 2 = 1) :
    Rodd m t x = 0 := by
  unfold Rodd
  rw [if_neg (by omega : ¬(m < x)),
    if_neg (by omega : ¬(x = m)),
    if_neg (by omega : ¬(t = 0)),
    if_neg (by omega : ¬(x = 0)),
    if_pos (by omega : x = m - 1),
    if_neg (by omega : ¬(t = m)),
    if_pos (by omega : t % 2 = 1)]

theorem Rodd_pen_even (m t x : Nat) (h : x < m ∧ t ≠ 0 ∧ x ≠ 0 ∧ x = m - 1 ∧ t ≠ m ∧ t % 2 = 0) :
    Rodd m t x = m := by
  unfold Rodd
  rw [if_neg (by omega : ¬(m < x)),
    if_neg (by omega : ¬(x = m)),
    if_neg (by omega : ¬(t = 0)),
    if_neg (by omega : ¬(x = 0)),
    if_pos (by omega : x = m - 1),
    if_neg (by omega : ¬(t = m)),
    if_neg (by omega : ¬(t % 2 = 1))]

theorem Rodd_lo (m t x : Nat) (h : x < m ∧ t ≠ 0 ∧ x ≠ 0 ∧ x ≠ m - 1 ∧ x < t) :
    Rodd m t x = Lodd m x := by
  unfold Rodd
  rw [if_neg (by omega : ¬(m < x)),
    if_neg (by omega : ¬(x = m)),
    if_neg (by omega : ¬(t = 0)),
    if_neg (by omega : ¬(x = 0)),
    if_neg (by omega : ¬(x = m - 1)),
    if_pos (by omega : x < t)]

theorem Rodd_hi (m t x : Nat) (h : x < m ∧ t ≠ 0 ∧ x ≠ 0 ∧ x ≠ m - 1 ∧ t ≤ x) :
    Rodd m t x = x := by
  unfold Rodd
  rw [if_neg (by omega : ¬(m < x)),
    if_neg (by omega : ¬(x = m)),
    if_neg (by omega : ¬(t = 0)),
    if_neg (by omega : ¬(x = 0)),
    if_neg (by omega : ¬(x = m - 1)),
    if_neg (by omega : ¬(x < t))]

theorem Rodd_step (m t x : Nat) (hm : m % 2 = 1) (ht : t < m) :
    Rodd m (t + 1) x = Rodd m t (Qodd m (swapN t m x)) := by
  rcases (show m < x ∨ x = m ∨ x = t ∨ (x < m ∧ x ≠ t ∧ x = 0) ∨
      (x ≠ t ∧ 0 < x ∧ x + 1 = m) ∨ (x ≠ t ∧ 0 < x ∧ x + 1 < m) from by omega)
    with h | h | h | h | h | h
  · rw [swapN_other t m x (by omega), Qodd_other m x (by omega), Rodd_gt m t x h,
      Rodd_gt m (t + 1) x h]
  · rw [swapN_snd t m x (by omega), Rodd_top m (t + 1) x h]
    rcases (show t = 0 ∨ (0 < t ∧ t + 1 = m) ∨ (0 < t ∧ t + 1 < m) from by omega)
      with h1 | h1 | h1
    · rw [Qodd_zero m t h1, Rodd_start m t (m - 1) (by omega), Lodd_one m (t + 1) (by omega)]
    · rw [Qodd_last m t (by omega), Rodd_zero_even m t 0 (by omega),
        Lodd_top m (t + 1) (by omega)]
    · rw [Qodd_other m t (by omega), Rodd_hi m t t (by omega), Lodd_mid m (t + 1) (by omega)]
      omega
  · rw [swapN_fst t m x h, Qodd_other m m (by omega), Rodd_top m t m rfl]
    rcases (show t = 0 ∨ (0 < t ∧ t + 1 = m) ∨ (0 < t ∧ t + 1 < m) from by omega)
      with h1 | h1 | h1
    · rw [Rodd_zero_odd m (t + 1) x (by omega), Lodd_zero m t h1]
    · rw [Rodd_pen_top m (t + 1) x (by omega), Lodd_mid m t (by omega)]
      omega
    · rw [Rodd_lo m (t + 1) x (by omega), h]
  · rw [swapN_other t m x (by omega), Qodd_zero m x (by omega)]
    rcases (show t % 2 = 1 ∨ t % 2 = 0 from by omega) with h1 | h1
    · rw [Rodd_pen_odd m t (m - 1) (by omega), Rodd_zero_even m (t + 1) x (by omega)]
    · rw [Rodd_pen_even m t (m - 1) (by omega), Rodd_zero_odd m (t + 1) x (by omega)]
  · rw [swapN_other t m x (by omega), Qodd_last m x (by omega)]
    rcases (show t = 0 ∨ (0 < t ∧ t % 2 = 1) ∨ (0 < t ∧ t % 2 = 0) from by omega)
      with h1 | h1 | h1
    · rw [Rodd_start m t 0 (by omega), Rodd_pen_odd m (t + 1) x (by omega)]
    · rw [Rodd_zero_odd m t 0 (by omega), Rodd_pen_even m (t + 1) x (by omega)]
    · rw [Rodd_zero_even m t 0 (by omega), Rodd_pen_odd m (t + 1) x (by omega)]
  · rw [swapN_other t m x (by omega), Qodd_other m x (by omega)]
    rcases (show t = 0 ∨ (0 < t ∧ x < t) ∨ (0 < t ∧ t < x) from by omega)
      with h1 | h1 | h1
    · rw [Rodd_start m t x (by omega), Rodd_hi m (t + 1) x (by omega)]
    · rw [Rodd_lo m t x (by omega), Rodd_lo m (t + 1) x (by omega)]
    · rw [Rodd_hi m t x (by omega), Rodd_hi m (t + 1) x (by omega)]

theorem Qeven_succ (m x : Nat) (hm : m % 2 = 1) :
    Qeven (m + 1) x = Rodd m m (Qodd m x) := by
  rcases (show m < x ∨ x = m ∨ x = 0 ∨ (0 < x ∧ x + 1 = m) ∨ (x = 1 ∧ x + 1 < m) ∨
      (2 ≤ x ∧ x + 1 < m) from by omega) with h | h | h | h | h | h
  · rw [Qodd_other m x (by omega), Rodd_gt m m x h, Qeven_ge (m + 1) x (by omega)]
  · rw [Qodd_other m x (by omega), Rodd_top m m x h, Qeven_last (m + 1) x (by omega)]
    rcases (show m = 1 ∨ 2 ≤ m from by omega) with h1 | h1
    · rw [Lodd_one m m h1]; omega
    · rw [Lodd_top m m (by omega)]
  · rw [Qodd_zero m x h]
    rcases (show m = 1 ∨ 2 ≤ m from by omega) with h1 | h1
    · rw [Rodd_zero_odd m m (m - 1) (by omega), Qeven_pen (m + 1) x (by omega)]; omega
    · rw [Rodd_pen_top m m (m - 1) (by omega), Qeven_zero (m + 1) x (by omega)]; omega
  · rw [Qodd_last m x (by omega), Rodd_zero_odd m m 0 (by omega),
      Qeven_pen (m + 1) x (by omega)]; omega
  · rw [Qodd_other m x (by omega), Rodd_lo m m x (by omega), Lodd_one m x (by omega),
      Qeven_one (m + 1) x (by omega)]; omega
  · rw [Qodd_other m x (by omega), Rodd_lo m m x (by omega), Lodd_mid m x (by omega),
      Qeven_mid (m + 1) x (by omega)]

theorem Lodd_le (m t : Nat) (ht : t ≤ m) : Lodd m t ≤ m := by
  unfold Lodd; (repeat' split) <;> omega

theorem Lodd_inj (m t u : Nat) (hm : m % 2 = 1) (ht : t ≤ m) (hu : u ≤ m)
    (h : Lodd m t = Lodd m u) : t = u := by
  unfold Lodd at h; split_ifs at h <;> omega

theorem ord_le (m j : Nat) (h : j ≤ m) : ord m j ≤ m := by
  unfold ord; (repeat' split) <;> omega

theorem ord_ord (m j : Nat) (hm : m % 2 = 0) (h : j ≤ m) : ord m (ord m j) = j := by
  rcases (show j = 0 ∨ (j ≠ 0 ∧ j = m) ∨ (j ≠ 0 ∧ j ≠ m ∧ j = m - 1) ∨
      (j ≠ 0 ∧ j ≠ m ∧ j ≠ m - 1 ∧ j = m - 2) ∨ (j ≠ 0 ∧ j ≠ m ∧ j ≠ m - 1 ∧ j ≠ m - 2)
      from by omega) with h1 | h1 | h1 | h1 | h1
  · rw [ord_zero m j h1]
    rcases (show m = 0 ∨ 0 < m from by omega) with h2 | h2
    · rw [ord_zero m m h2]; omega
    · rw [ord_top m m (by omega)]; omega
  · rw [ord_top m j h1, ord_zero m 0 rfl]; omega
  · rw [ord_pen m j h1, ord_pen m (m - 1) (by omega)]; omega
  · rw [ord_ante m j h1, ord_ante m (m - 2) (by omega)]; omega
  · rw [ord_mid m j h1, ord_mid m (m - 2 - j) (by omega)]; omega

/-- One sub-run followed by the swap of positions 0 and `m` advances the cycle. -/
theorem ord_Qeven_swapN (m x : Nat) (hm : m % 2 = 0) (hm1 : 1 ≤ m) (hx : x ≤ m) :
    ord m (Qeven m (swapN 0 m x)) = cyc m (ord m x + 1) := by
  rcases (show x = 0 ∨ x = m ∨ (0 < x ∧ x + 1 = m) ∨ (0 < x ∧ x + 2 = m) ∨
      (x = 1 ∧ x + 2 < m) ∨ (2 ≤ x ∧ x + 2 < m) from by omega) with h | h | h | h | h | h
  · rw [swapN_fst 0 m x h, Qeven_ge m m (by omega), ord_top m m (by omega), ord_zero m x h,
      cyc_gt m (m + 1) (by omega)]; omega
  · rw [swapN_snd 0 m x (by omega), ord_top m x (by omega), cyc_le m (0 + 1) (by omega)]
    rcases (show m = 2 ∨ 4 ≤ m from by omega) with h1 | h1
    · rw [Qeven_pen m 0 (by omega), ord_pen m (m - 1) (by omega)]; omega
    · rw [Qeven_zero m 0 (by omega), ord_mid m (m - 3) (by omega)]; omega
  · rw [swapN_other 0 m x (by omega), Qeven_last m x (by omega), ord_zero m 0 rfl,
      ord_pen m x (by omega), cyc_le m (m - 1 + 1) (by omega)]; omega
  · rw [swapN_other 0 m x (by omega), Qeven_pen m x (by omega), ord_pen m (m - 1) (by omega),
      ord_ante m x (by omega), cyc_le m (m - 2 + 1) (by omega)]; omega
  · rw [swapN_other 0 m x (by omega), Qeven_one m x (by omega), ord_ante m (m - 2) (by omega),
      ord_mid m x (by omega), cyc_le m (m - 2 - x + 1) (by omega)]; omega
  · rw [swapN_other 0 m x (by omega), Qeven_mid m x (by omega), ord_mid m (x - 1) (by omega),
      ord_mid m x (by omega), cyc_le m (m - 2 - x + 1) (by omega)]; omega

theorem Qeven_swapN_le (m x : Nat) (hm1 : 1 ≤ m) (hx : x ≤ m) :
    Qeven m (swapN 0 m x) ≤ m := by
  have h1 : swapN 0 m x ≤ m := by unfold swapN; (repeat' split) <;> omega
  generalize swapN 0 m x = y at h1
  unfold Qeven; (repeat' split) <;> omega

theorem cyc_cyc (m a t : Nat) (ha : a ≤ m) (ht : t < m) :
    cyc m (cyc m (a + 1) + t) = cyc m (a + (t + 1)) := by
  unfold cyc; (repeat' split) <;> omega

theorem Reven_step (m t x : Nat) (hm : m % 2 = 0) (hm1 : 1 ≤ m) (ht : t < m) :
    Reven m (t + 1) x = Reven m t (Qeven m (swapN 0 m x)) := by
  rcases (show m < x ∨ x ≤ m from by omega) with h | h
  · rw [swapN_other 0 m x (by omega), Qeven_ge m x (by omega)]
    unfold Reven; rw [if_pos h, if_pos h]
  · have h1 := Qeven_swapN_le m x hm1 h
    have h2 := ord_Qeven_swapN m x hm hm1 h
    unfold Reven
    rw [if_neg (by omega), if_neg (by omega), h2, cyc_cyc m (ord m x) t (ord_le m x h) ht]

theorem Qodd_succ (m x : Nat) (hm : m % 2 = 0) :
    Qodd (m + 1) x = Reven m m (Qeven m x) := by
  rcases (show m < x ∨ x ≤ m from by omega) with h | h
  · rw [Qeven_ge m x (by omega), Qodd_other (m + 1) x (by omega)]
    unfold Reven; rw [if_pos h]
  · have hy : Qeven m x ≤ m := by unfold Qeven; (repeat' split) <;> omega
    unfold Reven; rw [if_neg (by omega)]
    rcases (show x = m ∨ (x = 0 ∧ x < m) ∨ (0 < x ∧ x + 1 = m) ∨ (0 < x ∧ x + 2 = m) ∨
        (x = 1 ∧ x + 2 < m) ∨ (2 ≤ x ∧ x + 2 < m) from by omega) with h1 | h1 | h1 | h1 | h1 | h1
    · rw [Qeven_ge m x (by omega)]
      rcases (show m = 0 ∨ 0 < m from by omega) with h2 | h2
      · rw [Qodd_zero (m + 1) x (by omega), ord_zero m x (by omega),
          cyc_le m (m + m) (by omega), ord_zero m (m + m) (by omega)]
        omega
      · rw [Qodd_last (m + 1) x (by omega), ord_top m x (by omega),
          cyc_le m (0 + m) (by omega), ord_top m (0 + m) (by omega)]
    · rw [Qodd_zero (m + 1) x (by omega)]
      rcases (show m = 2 ∨ 4 ≤ m from by omega) with h2 | h2
      · rw [Qeven_pen m x (by omega), ord_pen m (m - 1) (by omega),
          cyc_gt m (m - 1 + m) (by omega), ord_zero m (m - 1 + m - (m + 1)) (by omega)]; omega
      · rw [Qeven_zero m x (by omega), ord_mid m (m - 3) (by omega),
          cyc_gt m (m - 2 - (m - 3) + m) (by omega),
          ord_zero m (m - 2 - (m - 3) + m - (m + 1)) (by omega)]; omega
    · rw [Qodd_other (m + 1) x (by omega), Qeven_last m x (by omega), ord_zero m 0 rfl,
        cyc_gt m (m + m) (by omega), ord_pen m (m + m - (m + 1)) (by omega)]; omega
    · rw [Qodd_other (m + 1) x (by omega), Qeven_pen m x (by omega),
        ord_pen m (m - 1) (by omega), cyc_gt m (m - 1 + m) (by omega),
        ord_ante m (m - 1 + m - (m + 1)) (by omega)]; omega
    · rw [Qodd_other (m + 1) x (by omega), Qeven_one m x (by omega),
        ord_ante m (m - 2) (by omega), cyc_gt m (m - 2 + m) (by omega),
        ord_mid m (m - 2 + m - (m + 1)) (by omega)]; omega
    · rw [Qodd_other (m + 1) x (by omega), Qeven_mid m x (by omega),
        ord_mid m (x - 1) (by omega), cyc_gt m (m - 2 - (x - 1) + m) (by omega),
        ord_mid m (m - 2 - (x - 1) + m - (m + 1)) (by omega)]; omega

/-! ### The two parities together -/

theorem Qc_succ (m x : Nat) : Qc (m + 1) x = Rc m m (Qc m x) := by
  rcases (show m % 2 = 1 ∨ m % 2 = 0 from by omega) with h | h
  · unfold Qc Rc
    rw [if_neg (by omega : ¬((m + 1) % 2 = 1)), if_pos h, if_pos h]
    exact Qeven_succ m x h
  · unfold Qc Rc
    rw [if_pos (by omega : (m + 1) % 2 = 1), if_neg (by omega : ¬(m % 2 = 1)),
      if_neg (by omega : ¬(m % 2 = 1))]
    exact Qodd_succ m x h

theorem Rc_step (m t x : Nat) (ht : t < m) :
    Rc m (t + 1) x = Rc m t (Qc m (swapN (sig m t) m x)) := by
  rcases (show m % 2 = 1 ∨ m % 2 = 0 from by omega) with h | h
  · unfold Qc Rc sig
    rw [if_pos h, if_pos h, if_pos h, if_pos h]
    exact Rodd_step m t x h ht
  · unfold Qc Rc sig
    rw [if_neg (by omega : ¬(m % 2 = 1)), if_neg (by omega : ¬(m % 2 = 1)),
      if_neg (by omega : ¬(m % 2 = 1)), if_neg (by omega : ¬(m % 2 = 1))]
    exact Reven_step m t x h (by omega) ht

theorem Rc_zero (m x : Nat) : Rc m 0 x = x := by
  rcases (show m % 2 = 1 ∨ m % 2 = 0 from by omega) with h | h
  · unfold Rc
    rw [if_pos h]
    rcases (show m < x ∨ x = m ∨ x < m from by omega) with h1 | h1 | h1
    · exact Rodd_gt m 0 x h1
    · rw [Rodd_top m 0 x h1, Lodd_zero m 0 rfl, h1]
    · exact Rodd_start m 0 x ⟨h1, rfl⟩
  · unfold Rc Reven
    rw [if_neg (by omega : ¬(m % 2 = 1))]
    rcases (show m < x ∨ x ≤ m from by omega) with h1 | h1
    · rw [if_pos h1]
    · rw [if_neg (by omega : ¬(m < x)), cyc_le m (ord m x + 0) (by have := ord_le m x h1; omega)]
      exact ord_ord m x h h1

theorem Rc_gt (m t x : Nat) (hx : m < x) : Rc m t x = x := by
  unfold Rc Reven
  rw [Rodd_gt m t x hx, if_pos hx]
  split <;> rfl

theorem Rc_top (m t : Nat) (ht : t ≤ m) :
    Rc m t m = if m % 2 = 1 then Lodd m t else ord m t := by
  unfold Rc Reven
  rcases (show m % 2 = 1 ∨ m % 2 = 0 from by omega) with h | h
  · rw [if_pos h, if_pos h, Rodd_top m t m rfl]
  · rw [if_neg (by omega : ¬(m % 2 = 1)), if_neg (by omega : ¬(m % 2 = 1)),
      if_neg (by omega : ¬(m < m))]
    rcases (show m = 0 ∨ 0 < m from by omega) with h1 | h1
    · rw [ord_zero m m (by omega), cyc_le m (m + t) (by omega)]
      congr 1; omega
    · rw [ord_top m m (by omega), cyc_le m (0 + t) (by omega)]
      congr 1; omega

theorem Rc_top_le (m t : Nat) (ht : t ≤ m) : Rc m t m ≤ m := by
  rw [Rc_top m t ht]
  split
  · exact Lodd_le m t ht
  · exact ord_le m t ht

theorem Rc_top_inj (m t u : Nat) (ht : t ≤ m) (hu : u ≤ m) (h : Rc m t m = Rc m u m) :
    t = u := by
  rw [Rc_top m t ht, Rc_top m u hu] at h
  rcases (show m % 2 = 1 ∨ m % 2 = 0 from by omega) with h1 | h1
  · rw [if_pos h1, if_pos h1] at h
    exact Lodd_inj m t u h1 ht hu h
  · rw [if_neg (by omega : ¬(m % 2 = 1)), if_neg (by omega : ¬(m % 2 = 1))] at h
    have := congrArg (ord m) h
    rwa [ord_ord m t h1 ht, ord_ord m u h1 hu] at this

theorem sig_lt (m t : Nat) (ht : t < m) : sig m t < m := by
  unfold sig; split <;> omega

/-! ### Swapping two positions of a list -/

theorem swapAt_eq_some (a : List Int) (p q : Nat) (hp : p < a.length) (hq : q < a.length) :
    swapAt a p q = some ((a.set p a[q]).set q a[p]) := by
  unfold swapAt
  rw [List.getElem?_eq_getElem hp, List.getElem?_eq_getElem hq]

theorem swapPos_eq (a : List Int) (p q : Nat) (hp : p < a.length) (hq : q < a.length) :
    swapPos a p q = (a.set p a[q]).set q a[p] := by
  unfold swapPos
  rw [swapAt_eq_some a p q hp hq]
  rfl

theorem swapAt_length (a b : List Int) (p q : Nat) (h : swapAt a p q = some b) :
    b.length = a.length := by
  unfold swapAt at h
  split at h
  · cases h; simp
  · cases h

theorem swapPos_length (a : List Int) (p q : Nat) : (swapPos a p q).length = a.length := by
  unfold swapPos
  cases h : swapAt a p q with
  | none => rfl
  | some b => exact swapAt_length a b p q h

theorem swapPos_getElem? (a : List Int) (p q x : Nat) (hp : p < a.length)
    (hq : q < a.length) : (swapPos a p q)[x]? = a[swapN p q x]? := by
  rw [swapPos_eq a p q hp hq, List.getElem?_set, List.getElem?_set]
  unfold swapN
  by_cases h1 : x = p
  · subst h1
    by_cases h2 : q = x
    · subst h2; simp [hp, List.getElem?_eq_getElem hp]
    · have h3 : ¬ x = q := fun h => h2 h.symm
      simp [h2, h3, hp, hq]
  · by_cases h2 : x = q
    · subst h2; simp [h1, hp, hq]
    · have h3 : ¬ q = x := fun h => h2 h.symm
      have h4 : ¬ p = x := fun h => h1 h.symm
      simp [h1, h2, h3, h4]

theorem swapPos_perm (a : List Int) (p q : Nat) : (swapPos a p q).Perm a := by
  by_cases hp : p < a.length
  · by_cases hq : q < a.length
    · rw [swapPos_eq a p q hp hq, List.perm_iff_count]
      intro b
      have hq1 : q < (a.set p a[q]).length := by simpa using hq
      rw [List.count_set _ _ _ _ hq1, List.count_set _ _ _ _ hp]
      have e : (a.set p a[q])[q] = a[q] := by
        rw [List.getElem_set]; split
        · rfl
        · rfl
      rw [e]
      have hc : a[p] = b → 0 < a.count b := fun h =>
        List.count_pos_iff.2 (h ▸ List.getElem_mem hp)
      by_cases h1 : a[p] = b <;> by_cases h2 : a[q] = b <;> simp [h1, h2] <;> omega
    · unfold swapPos swapAt
      rw [List.getElem?_eq_none (by omega : a.length ≤ q)]
      cases a[p]? <;> exact List.Perm.refl _
  · unfold swapPos swapAt
    rw [List.getElem?_eq_none (by omega : a.length ≤ p)]
    exact List.Perm.refl _

theorem swapPos_map (f : Int → Int) (a : List Int) (p q : Nat) :
    swapPos (a.map f) p q = (swapPos a p q).map f := by
  unfold swapPos swapAt
  rw [List.getElem?_map, List.getElem?_map]
  cases hp : a[p]? <;> cases hq : a[q]? <;> simp [List.map_set]

/-! ### The emissions of a climb -/

theorem rounds_succ (sub : List Int → List (List Int) × List Int) (m cnt j : Nat)
    (A : List Int) :
    rounds sub m (cnt + 1) j A =
      (swapPos A (sig m j) m ::
          ((sub (swapPos A (sig m j) m)).1 ++
            (rounds sub m cnt (j + 1) (sub (swapPos A (sig m j) m)).2).1),
        (rounds sub m cnt (j + 1) (sub (swapPos A (sig m j) m)).2).2) := rfl

theorem genTail_succ (m : Nat) (A : List Int) :
    genTail (m + 1) A =
      ((genTail m A).1 ++ (rounds (genTail m) m m 0 (genTail m A).2).1,
        (rounds (genTail m) m m 0 (genTail m A).2).2) := rfl

theorem rounds_spec (m : Nat) (ih : ClimbSpec m) (A0 : List Int) (hA0 : m + 1 ≤ A0.length) :
    ∀ cnt j F, j + cnt = m → F.Perm A0 → (∀ x, F[x]? = A0[Rc m j (Qc m x)]?) →
      (rounds (genTail m) m cnt j F).2.Perm A0 ∧
      (∀ x, (rounds (genTail m) m cnt j F).2[x]? = A0[Rc m m (Qc m x)]?) ∧
      (∀ e ∈ (rounds (genTail m) m cnt j F).1,
          e.Perm A0 ∧ (∀ x, m + 1 ≤ x → e[x]? = A0[x]?) ∧
            ∃ t, j < t ∧ t ≤ m ∧ e[m]? = A0[Rc m t m]?) ∧
      (A0.Nodup → (rounds (genTail m) m cnt j F).1.Nodup) ∧
      (rounds (genTail m) m cnt j F).1.length = cnt * m.factorial := by
  intro cnt
  induction cnt with
  | zero =>
    intro j F hj hF hx
    have hjm : j = m := by omega
    subst hjm
    simp only [rounds]
    exact ⟨hF, hx, by simp, by simp, by simp⟩
  | succ cnt ihc =>
    intro j F hj hF hx
    have hjm : j < m := by omega
    have hlen : F.length = A0.length := hF.length_eq
    have hBperm : (swapPos F (sig m j) m).Perm A0 := (swapPos_perm F _ _).trans hF
    have hBx : ∀ x, (swapPos F (sig m j) m)[x]? = A0[Rc m (j + 1) x]? := by
      intro x
      rw [swapPos_getElem? F _ _ x (by have := sig_lt m j hjm; omega) (by omega), hx,
        ← Rc_step m j x hjm]
    obtain ⟨g1, g2, g3, g4, _⟩ := ih (swapPos F (sig m j) m) (by rw [hBperm.length_eq]; omega)
    have g5 := (ih (swapPos F (sig m j) m) (by rw [hBperm.length_eq]; omega)).2.2.2.2
    have hF1 : (genTail m (swapPos F (sig m j) m)).2.Perm A0 := g1.trans hBperm
    have hx1 : ∀ x, (genTail m (swapPos F (sig m j) m)).2[x]? =
        A0[Rc m (j + 1) (Qc m x)]? := by
      intro x; rw [g2, hBx]
    obtain ⟨r1, r2, r3, r4, r5⟩ :=
      ihc (j + 1) (genTail m (swapPos F (sig m j) m)).2 (by omega) hF1 hx1
    rw [rounds_succ]
    have hblock : ∀ e ∈ swapPos F (sig m j) m :: (genTail m (swapPos F (sig m j) m)).1,
        e.Perm A0 ∧ (∀ x, m + 1 ≤ x → e[x]? = A0[x]?) ∧ e[m]? = A0[Rc m (j + 1) m]? := by
      intro e he
      have hb : e.Perm (swapPos F (sig m j) m) ∧
          ∀ x, m ≤ x → e[x]? = (swapPos F (sig m j) m)[x]? := by
        rcases List.mem_cons.1 he with h | h
        · subst h; exact ⟨List.Perm.refl _, fun _ _ => rfl⟩
        · exact g3 e h
      refine ⟨hb.1.trans hBperm, ?_, ?_⟩
      · intro x hx2
        rw [hb.2 x (by omega), hBx, Rc_gt m (j + 1) x (by omega)]
      · rw [hb.2 m (le_refl _), hBx]
    refine ⟨r1, r2, ?_, ?_, ?_⟩
    · intro e he
      rw [← List.cons_append] at he
      rcases List.mem_append.1 he with h | h
      · obtain ⟨a1, a2, a3⟩ := hblock e h
        exact ⟨a1, a2, j + 1, by omega, by omega, a3⟩
      · obtain ⟨a1, a2, t, a3, a4, a5⟩ := r3 e h
        exact ⟨a1, a2, t, by omega, a4, a5⟩
    · intro hnd
      rw [← List.cons_append]
      refine List.Nodup.append (g4 (hBperm.nodup_iff.2 hnd)) (r4 hnd) ?_
      intro e he1 he2
      obtain ⟨_, _, a3⟩ := hblock e he1
      obtain ⟨_, _, t, b3, b4, b5⟩ := r3 e he2
      have hlt : Rc m (j + 1) m < A0.length := by
        have := Rc_top_le m (j + 1) (by omega); omega
      have h1 := List.getElem?_inj hlt hnd (a3.symm.trans b5)
      have h2 := Rc_top_inj m (j + 1) t (by omega) b4 h1
      omega
    · simp only [List.length_cons, List.length_append, r5]
      rw [Nat.succ_mul]; omega

theorem genTail_spec (m : Nat) : ClimbSpec m := by
  induction m with
  | zero =>
    intro A _
    refine ⟨List.Perm.refl _, ?_, ?_, ?_, ?_⟩
    · intro x
      show A[x]? = A[Qc 0 x]?
      unfold Qc; rw [if_neg (by omega : ¬(0 % 2 = 1)), Qeven_ge 0 x (by omega)]
    · intro e he; cases he
    · intro _; exact List.nodup_singleton A
    · rfl
  | succ m ih =>
    intro A hA
    obtain ⟨g1, g2, g3, g4, g5⟩ := ih A (by omega)
    obtain ⟨r1, r2, r3, r4, r5⟩ := rounds_spec m ih A hA m 0 (genTail m A).2 (by omega) g1
      (by intro x; rw [g2, Rc_zero])
    rw [genTail_succ]
    refine ⟨r1, ?_, ?_, ?_, ?_⟩
    · intro x; rw [r2, Qc_succ]
    · intro e he
      rcases List.mem_append.1 he with h | h
      · exact ⟨(g3 e h).1, fun x hx => (g3 e h).2 x (by omega)⟩
      · exact ⟨(r3 e h).1, (r3 e h).2.1⟩
    · intro hnd
      rw [← List.cons_append]
      refine List.Nodup.append (g4 hnd) (r4 hnd) ?_
      intro e he1 he2
      have a3 : e[m]? = A[Rc m 0 m]? := by
        rw [Rc_zero]
        rcases List.mem_cons.1 he1 with h | h
        · rw [h]
        · exact (g3 e h).2 m (le_refl _)
      obtain ⟨_, _, t, b3, b4, b5⟩ := r3 e he2
      have hlt : Rc m 0 m < A.length := by rw [Rc_zero]; omega
      have h1 := List.getElem?_inj hlt hnd (a3.symm.trans b5)
      have h2 := Rc_top_inj m 0 t (by omega) b4 h1
      omega
    · simp only [List.length_append, r5, Nat.factorial_succ]
      rw [Nat.succ_mul]; omega

/-! ### The text written by `printArray` -/

theorem intercalate_go_snoc (s : String) (l : List String) (acc y : String) :
    String.intercalate.go acc s (l ++ [y]) = String.intercalate.go acc s l ++ s ++ y := by
  induction l generalizing acc with
  | nil => rfl
  | cons a l ih => exact ih (acc ++ s ++ a)

theorem intercalate_snoc (s : String) (l : List String) (y : String) (hl : l ≠ []) :
    s.intercalate (l ++ [y]) = s.intercalate l ++ s ++ y := by
  cases l with
  | nil => exact absurd rfl hl
  | cons a l => exact intercalate_go_snoc s l a y

theorem printElem_eq (a : List Int) (n : Nat) (out : String) (i : Nat) (hi : i < a.length) :
    printElem a n out i =
      some (out ++ showInt a[i] ++ (if i + 1 < n then " " else "\n")) := by
  unfold printElem
  rw [List.getElem?_eq_getElem hi]
  by_cases h : i + 1 < n
  · simp only [if_pos h, if_pos (by omega : (i : Int) < (n : Int) - 1)]
  · simp only [if_neg h, if_neg (by omega : ¬((i : Int) < (n : Int) - 1))]

theorem printArray_fold (a : List Int) (n : Nat) (out : String) (hn : n ≤ a.length) :
    ∀ k, k + 1 ≤ n →
      (List.range (k + 1)).foldlM (printElem a n) out =
        some (out ++ " ".intercalate ((a.take (k + 1)).map showInt) ++
          (if k + 1 < n then " " else "\n")) := by
  intro k
  induction k with
  | zero =>
    intro h
    have h0 : 0 < a.length := by omega
    have e : a.take 1 = [a[0]] := by
      cases a with
      | nil => simp at h0
      | cons x xs => rfl
    rw [e]
    simp only [List.range_succ, List.range_zero, List.nil_append, List.foldlM_cons,
      List.foldlM_nil, printElem_eq a n out 0 h0]
    rfl
  | succ k ih =>
    intro h
    have hk : k + 1 < a.length := by omega
    have e : a.take (k + 1 + 1) = a.take (k + 1) ++ [a[k + 1]] := by
      rw [List.take_succ, List.getElem?_eq_getElem hk]; rfl
    have hne : (a.take (k + 1)).map showInt ≠ [] := by
      intro h1
      have := congrArg List.length h1
      simp only [List.length_map, List.length_take, List.length_nil] at this
      omega
    rw [List.range_succ, List.foldlM_append, ih (by omega), if_pos (by omega : k + 1 < n)]
    simp only [Option.bind_eq_bind, Option.some_bind, List.foldlM_cons, List.foldlM_nil,
      printElem_eq a n _ (k + 1) hk]
    rw [e, List.map_append, List.map_singleton, intercalate_snoc _ _ _ hne]
    simp only [String.append_assoc, Option.pure_def, Option.bind_some]

/-- For `1 ≤ n ≤ length`, `printArray` appends exactly the line of the first `n` elements. -/
theorem printArray_eq (a : List Int) (n : Nat) (out : String) (h1 : 1 ≤ n)
    (hn : n ≤ a.length) : printArray a n out = some (out ++ lineOf (a.take n)) := by
  unfold printArray lineOf
  obtain ⟨k, rfl⟩ : ∃ k, n = k + 1 := ⟨n - 1, by omega⟩
  rw [printArray_fold a (k + 1) out hn k (le_refl _), if_neg (by omega : ¬(k + 1 < k + 1)),
    String.append_assoc]

theorem printArray_zero (a : List Int) (out : String) : printArray a 0 out = some out := rfl

theorem textOf_append (es fs : List (List Int)) :
    textOf (es ++ fs) = textOf es ++ textOf fs := by
  induction es with
  | nil => simp [textOf]
  | cons e es ih => simp [textOf, ih, String.append_assoc]

/-! ### The loop replays the climbs -/

theorem runSteps_add (n k1 k2 : Nat) (s : HState) :
    runSteps n (k1 + k2) s = (runSteps n k1 s).bind (runSteps n k2) := by
  induction k1 generalizing s with
  | zero => simp [runSteps]
  | succ k1 ih =>
    rw [show k1 + 1 + k2 = (k1 + k2) + 1 from by omega]
    simp only [runSteps]
    split
    · cases h : loopBody n s with
      | none => rfl
      | some s1 => simp only [Option.bind, ih s1]
    · rfl

theorem whileLoop_of_runSteps (n k : Nat) (s t : HState) (h : runSteps n k s = some t)
    (hdone : ¬ t.i < n) (extra : Nat) : whileLoop n (k + extra) s = some t := by
  induction k generalizing s with
  | zero =>
    simp only [runSteps, Option.some.injEq] at h
    subst h
    cases extra <;> simp [whileLoop, hdone]
  | succ k ih =>
    rw [show k + 1 + extra = (k + extra) + 1 from by omega]
    simp only [runSteps] at h
    split at h
    · rename_i hi
      cases hb : loopBody n s with
      | none => rw [hb] at h; cases h
      | some s1 =>
        rw [hb] at h
        simp only [whileLoop, if_pos hi, hb]
        exact ih s1 h
    · cases h

theorem loopBody_swap (n j : Nat) (s : HState) (hi : s.i < n) (hc : s.c[s.i]? = some j)
    (hj : j < s.i) (hlen : s.a.length = n) :
    loopBody n s =
      some { a := swapPos s.a (sig s.i j) s.i, c := s.c.set s.i (j + 1), i := 0,
             out := s.out ++ lineOf (swapPos s.a (sig s.i j) s.i),
             ems := s.ems ++ [swapPos s.a (sig s.i j) s.i], swaps := s.swaps + 1 } := by
  have hsig : sig s.i j < s.a.length := by have := sig_lt s.i j hj; omega
  have hsw : (if s.i % 2 = 1 then swapAt s.a j s.i else swapAt s.a 0 s.i) =
      some (swapPos s.a (sig s.i j) s.i) := by
    have e : (if s.i % 2 = 1 then swapAt s.a j s.i else swapAt s.a 0 s.i) =
        swapAt s.a (sig s.i j) s.i := by
      unfold sig; split <;> rfl
    rw [e, swapAt_eq_some s.a _ _ hsig (by omega), swapPos_eq s.a _ _ hsig (by omega)]
  have hl : (swapPos s.a (sig s.i j) s.i).length = n := by rw [swapPos_length]; exact hlen
  have hp := printArray_eq (swapPos s.a (sig s.i j) s.i) n s.out (by omega) (by omega)
  rw [List.take_of_length_le (by omega)] at hp
  unfold loopBody
  simp only [hc, if_pos hj, hsw, hp, List.take_of_length_le (le_of_eq hl)]

theorem loopBody_next (n j : Nat) (s : HState) (hc : s.c[s.i]? = some j) (hj : ¬ j < s.i) :
    loopBody n s = some { s with c := s.c.set s.i 0, i := s.i + 1 } := by
  unfold loopBody
  simp only [hc, if_neg hj]

theorem set_same (cs : List Nat) (m v : Nat) (h : cs[m]? = some v) : cs.set m v = cs := by
  apply List.ext_getElem?
  intro k
  rw [List.getElem?_set]
  split
  · rename_i hk
    subst hk
    have hlt : m < cs.length := by
      by_contra hge
      rw [List.getElem?_eq_none (by omega)] at h
      cases h
    rw [if_pos hlt, h]
  · rfl

theorem roundsRun (n m : Nat) (ih : ClimbRun n m) (hm : m < n) :
    ∀ cnt j (a : List Int) (cs : List Nat) (out : String) (ems : List (List Int))
      (swaps : Nat), j + cnt = m → a.length = n → cs[m]? = some j →
      (∀ k, k < m → cs[k]? = some 0) →
      runSteps n (cnt * (loopBound m + 1) + 1) ⟨a, cs, m, out, ems, swaps⟩ =
        some ⟨(rounds (genTail m) m cnt j a).2, cs.set m 0, m + 1,
          out ++ textOf (rounds (genTail m) m cnt j a).1,
          ems ++ (rounds (genTail m) m cnt j a).1,
          swaps + (rounds (genTail m) m cnt j a).1.length⟩ := by
  intro cnt
  induction cnt with
  | zero =>
    intro j a cs out ems swaps hj hlen hc hz
    have hjm : j = m := by omega
    subst hjm
    simp only [Nat.zero_mul, Nat.zero_add, runSteps, if_pos hm]
    rw [loopBody_next n j _ hc (by simp)]
    simp [rounds, textOf]
  | succ cnt ihc =>
    intro j a cs out ems swaps hj hlen hc hz
    have hjm : j < m := by omega
    have hmc : m < cs.length := by
      by_contra hge
      rw [List.getElem?_eq_none (by omega)] at hc
      cases hc
    rw [show (cnt + 1) * (loopBound m + 1) + 1 =
        1 + (loopBound m + (cnt * (loopBound m + 1) + 1)) from by rw [Nat.succ_mul]; omega,
      runSteps_add]
    have h1 : runSteps n 1 ⟨a, cs, m, out, ems, swaps⟩ =
        some ⟨swapPos a (sig m j) m, cs.set m (j + 1), 0,
          out ++ lineOf (swapPos a (sig m j) m), ems ++ [swapPos a (sig m j) m],
          swaps + 1⟩ := by
      simp only [runSteps, if_pos hm]
      rw [loopBody_swap n j _ hm hc hjm hlen]
      rfl
    rw [h1]
    simp only [Option.bind]
    rw [runSteps_add]
    have hl1 : (swapPos a (sig m j) m).length = n := by rw [swapPos_length]; exact hlen
    rw [ih _ _ _ _ _ hl1 (by omega) (by
      intro k hk
      rw [List.getElem?_set_ne (by omega)]
      exact hz k hk)]
    simp only [Option.bind]
    have hl2 : (genTail m (swapPos a (sig m j) m)).2.length = n := by
      rw [(genTail_spec m _ (by omega)).1.length_eq]; exact hl1
    rw [ihc (j + 1) _ _ _ _ _ (by omega) hl2 (by
        rw [List.getElem?_set_self hmc]) (by
        intro k hk
        rw [List.getElem?_set_ne (by omega)]
        exact hz k hk)]
    simp only [rounds_succ, sig, List.set_set, textOf, textOf_append, String.append_assoc,
      List.append_assoc, List.singleton_append, List.length_cons, List.length_append,
      Option.some.injEq, HState.mk.injEq, true_and, List.cons_append, List.nil_append]
    omega

theorem climbRun (n m : Nat) : ClimbRun n m := by
  induction m with
  | zero =>
    intro a cs out ems swaps _ _ _
    simp [runSteps, loopBound, genTail, textOf]
  | succ m ih =>
    intro a cs out ems swaps hlen hm hz
    rw [show loopBound (m + 1) = loopBound m + (m * (loopBound m + 1) + 1) from by
      rw [loopBound, Nat.succ_mul]; omega, runSteps_add]
    rw [ih _ _ _ _ _ hlen (by omega) (fun k hk => hz k (by omega))]
    simp only [Option.bind]
    have hl2 : (genTail m a).2.length = n := by
      rw [(genTail_spec m _ (by omega)).1.length_eq]; exact hlen
    rw [roundsRun n m ih (by omega) m 0 _ _ _ _ _ (by omega) hl2 (hz m (by omega))
      (fun k hk => hz k (by omega))]
    simp only [genTail_succ, set_same cs m 0 (hz m (by omega)), textOf_append,
      String.append_assoc, List.append_assoc, List.length_append, Option.some.injEq,
      HState.mk.injEq, true_and]
    omega

/-! ### The whole run -/

theorem heaps_algorithm_eq (S : List Int) :
    heaps_algorithm S S.length =
      some ⟨(genTail S.length S).2, List.replicate S.length 0, S.length,
        (if S.length = 0 then "" else lineOf S) ++ textOf (genTail S.length S).1,
        S :: (genTail S.length S).1, (genTail S.length S).1.length⟩ := by
  have hrun := climbRun S.length S.length S (List.replicate S.length 0)
    (if S.length = 0 then "" else lineOf S) [S] 0 rfl (le_refl _)
    (fun k hk => by rw [List.getElem?_replicate, if_pos hk])
  have hw := whileLoop_of_runSteps S.length (loopBound S.length) _ _ hrun (by simp) 0
  have hp : printArray S S.length "" = some (if S.length = 0 then "" else lineOf S) := by
    by_cases h0 : S.length = 0
    · rw [if_pos h0, h0, printArray_zero]
    · rw [printArray_eq S S.length "" (by omega) (le_refl _), if_neg h0, List.take_length,
        String.empty_append]
  unfold heaps_algorithm initState
  simp only [hp, List.take_length]
  simp only [Nat.add_zero] at hw
  rw [hw]
  simp

theorem genLoop_eq (m : Nat) (sub sub1 : List Int → List (List Int) × List Int)
    (hsub : ∀ A, sub A = (A :: (sub1 A).1, (sub1 A).2)) :
    ∀ cnt j A, genLoop sub (m + 1) cnt j A = rounds sub1 m cnt j A := by
  intro cnt
  induction cnt with
  | zero => intro j A; rfl
  | succ cnt ih =>
    intro j A
    have e : (if (m + 1) % 2 = 0 then swapPos A j (m + 1 - 1) else swapPos A 0 (m + 1 - 1)) =
        swapPos A (sig m j) m := by
      unfold sig
      rw [Nat.add_sub_cancel]
      rcases (show m % 2 = 1 ∨ m % 2 = 0 from by omega) with h | h
      · rw [if_pos (by omega : (m + 1) % 2 = 0), if_pos h]
      · rw [if_neg (by omega : ¬((m + 1) % 2 = 0)), if_neg (by omega : ¬(m % 2 = 1))]
    simp only [genLoop, rounds_succ, e, hsub, ih, List.cons_append]

theorem gen_eq (k : Nat) : ∀ A, gen k A = (A :: (genTail k A).1, (genTail k A).2) := by
  induction k with
  | zero => intro A; rfl
  | succ k ih =>
    intro A
    cases k with
    | zero => rfl
    | succ k =>
      simp only [gen, genTail_succ (k + 1), genLoop_eq (k + 1) (gen (k + 1)) (genTail (k + 1)) ih,
        ih A, List.cons_append]

theorem rounds_map (f : Int → Int) (sub : List Int → List (List Int) × List Int) (m : Nat)
    (hsub : ∀ A, sub (A.map f) = ((sub A).1.map (List.map f), (sub A).2.map f)) :
    ∀ cnt j A, rounds sub m cnt j (A.map f) =
      ((rounds sub m cnt j A).1.map (List.map f), (rounds sub m cnt j A).2.map f) := by
  intro cnt
  induction cnt with
  | zero => intro j A; rfl
  | succ cnt ih =>
    intro j A
    simp only [rounds_succ, swapPos_map, hsub, ih, List.map_cons, List.map_append]

theorem genTail_map (f : Int → Int) (m : Nat) :
    ∀ A, genTail m (A.map f) = ((genTail m A).1.map (List.map f), (genTail m A).2.map f) := by
  induction m with
  | zero => intro A; rfl
  | succ m ih =>
    intro A
    simp only [genTail_succ, ih, rounds_map f (genTail m) m ih, List.map_append]

/-! ### Consecutive emissions -/

theorem swapOf_swapPos (n : Nat) (a : List Int) (p q : Nat) (hpq : p < q) (hq : q < n)
    (hlen : a.length = n) : SwapOf n a (swapPos a p q) := by
  refine ⟨hlen, by rw [swapPos_length]; exact hlen, p, q, hpq, hq, ?_, ?_, ?_⟩
  · rw [swapPos_getElem? a p q p (by omega) (by omega), swapN_fst p q p rfl]
  · rw [swapPos_getElem? a p q q (by omega) (by omega), swapN_snd p q q ⟨by omega, rfl⟩]
  · intro k h1 h2
    rw [swapPos_getElem? a p q k (by omega) (by omega), swapN_other p q k ⟨h1, h2⟩]

theorem loopBody_inv (n : Nat) (s t : HState) (h : loopBody n s = some t) (hi : s.i < n)
    (hinv : EmitInv n s) : EmitInv n t := by
  obtain ⟨hlen, hlast, hchain⟩ := hinv
  cases hc : s.c[s.i]? with
  | none =>
    unfold loopBody at h
    simp only [hc] at h
    cases h
  | some j =>
    by_cases hj : j < s.i
    · rw [loopBody_swap n j s hi hc hj hlen] at h
      cases h
      refine ⟨by simp only [swapPos_length]; exact hlen, by simp, ?_⟩
      refine List.chain'_append.2 ⟨hchain, List.chain'_singleton _, ?_⟩
      intro x hx y hy
      rw [hlast] at hx
      cases hx
      cases hy
      exact swapOf_swapPos n s.a (sig s.i j) s.i (sig_lt s.i j hj) hi hlen
    · rw [loopBody_next n j s hc hj] at h
      cases h
      exact ⟨hlen, hlast, hchain⟩

theorem whileLoop_inv (n : Nat) : ∀ fuel (s t : HState), whileLoop n fuel s = some t →
    EmitInv n s → EmitInv n t := by
  intro fuel
  induction fuel with
  | zero =>
    intro s t h hinv
    unfold whileLoop at h
    split at h
    · cases h
    · cases h; exact hinv
  | succ fuel ih =>
    intro s t h hinv
    unfold whileLoop at h
    split at h
    · rename_i hi
      cases hb : loopBody n s with
      | none => rw [hb] at h; cases h
      | some s1 =>
        rw [hb] at h
        exact ih s1 t h (loopBody_inv n s s1 hb hi hinv)
    · cases h; exact hinv

theorem chain_getElem? (R : List Int → List Int → Prop) :
    ∀ (l : List (List Int)) (k : Nat) (P Q : List Int), List.Chain' R l →
      l[k]? = some P → l[k + 1]? = some Q → R P Q := by
  intro l
  induction l with
  | nil => intro k P Q _ h; cases h
  | cons x l ih =>
    intro k P Q hc hP hQ
    cases k with
    | zero =>
      cases l with
      | nil => cases hQ
      | cons y l =>
        simp only [List.getElem?_cons_zero, List.getElem?_cons_succ, Option.some.injEq] at hP hQ
        subst hP; subst hQ
        exact (List.chain'_cons.1 hc).1
    | succ k =>
      simp only [List.getElem?_cons_succ] at hP hQ
      exact ih k P Q (List.chain'_cons'.1 hc).2 hP hQ

theorem emissions_chain (S : List Int) :
    List.Chain' (SwapOf S.length) (S :: (genTail S.length S).1) := by
  have h := heaps_algorithm_eq S
  unfold heaps_algorithm at h
  cases hin : initState S S.length with
  | none => rw [hin] at h; cases h
  | some s0 =>
    rw [hin] at h
    simp only at h
    have hs0 : s0 = ⟨S, List.replicate S.length 0, 0, s0.out, [S], 0⟩ := by
      unfold initState at hin
      split at hin
      · cases hin
      · cases hin; simp
    have hinv : EmitInv S.length s0 := by
      rw [hs0]
      exact ⟨rfl, rfl, List.chain'_singleton _⟩
    exact (whileLoop_inv S.length _ s0 _ h hinv).2.2

/-! ### Emissions as index permutations -/

theorem indexSeq_nodup (n : Nat) : (indexSeq n).Nodup :=
  List.Nodup.map (fun _ _ h => Int.ofNat.inj h) (List.nodup_range n)

theorem indexSeq_length (n : Nat) : (indexSeq n).length = n := by
  simp [indexSeq]

theorem map_indexSeq (S : List Int) :
    (indexSeq S.length).map (fun z => S.getD z.toNat 0) = S := by
  apply List.ext_getElem
  · simp [indexSeq]
  · intro k h1 h2
    simp [indexSeq, List.getD_eq_getElem?_getD, List.getElem?_eq_getElem h2]

theorem toNat_indexSeq (n : Nat) : (indexSeq n).map Int.toNat = List.range n := by
  unfold indexSeq
  rw [List.map_map]
  conv_rhs => rw [← List.map_id (List.range n)]
  apply List.map_congr_left
  intro k _
  simp

theorem ofNat_toNat_of_perm (n : Nat) (e : List Int) (h : e.Perm (indexSeq n)) :
    (e.map Int.toNat).map Int.ofNat = e := by
  rw [List.map_map]
  conv_rhs => rw [← List.map_id e]
  apply List.map_congr_left
  intro z hz
  have hz1 : z ∈ indexSeq n := h.subset hz
  obtain ⟨k, _, rfl⟩ := List.mem_map.1 hz1
  simp

/-- On pairwise distinct input the emissions are, up to order, all the orderings. -/
theorem emissions_perm_permutations (A : List Int) (hnd : A.Nodup) :
    (A :: (genTail A.length A).1).Perm A.permutations := by
  obtain ⟨_, _, g3, g4, g5⟩ := genTail_spec A.length A (le_refl _)
  refine (List.subperm_of_subset (g4 hnd) ?_).perm_of_length_le ?_
  · intro e he
    rcases List.mem_cons.1 he with h | h
    · rw [h]; exact List.mem_permutations.2 (List.Perm.refl _)
    · exact List.mem_permutations.2 (g3 e h).1
  · rw [List.length_permutations, List.length_cons, g5]

theorem emissions_eq_map (S : List Int) :
    S :: (genTail S.length S).1 =
      ((indexSeq S.length :: (genTail S.length (indexSeq S.length)).1).map
        (List.map Int.toNat)).map (readThrough S) := by
  have h := genTail_map (fun z => S.getD z.toNat 0) S.length (indexSeq S.length)
  rw [map_indexSeq] at h
  rw [h, List.map_map]
  simp only [List.map_cons]
  congr 1
  · unfold readThrough
    rw [Function.comp_apply, List.map_map]
    exact (map_indexSeq S).symm
  · apply List.map_congr_left
    intro e _
    unfold readThrough
    rw [Function.comp_apply, List.map_map]
    rfl

theorem indexLists_spec (n : Nat) :
    ((indexSeq n :: (genTail n (indexSeq n)).1).map (List.map Int.toNat)).Nodup ∧
      ∀ p : List Nat,
        p ∈ (indexSeq n :: (genTail n (indexSeq n)).1).map (List.map Int.toNat) ↔
          p.Perm (List.range n) := by
  have hall := emissions_perm_permutations (indexSeq n) (indexSeq_nodup n)
  rw [indexSeq_length] at hall
  have hmem : ∀ e, e ∈ indexSeq n :: (genTail n (indexSeq n)).1 ↔ e.Perm (indexSeq n) :=
    fun e => (hall.mem_iff).trans List.mem_permutations
  have hnd : (indexSeq n :: (genTail n (indexSeq n)).1).Nodup :=
    hall.nodup_iff.2 (List.nodup_permutations _ (indexSeq_nodup n))
  constructor
  · refine List.Nodup.map_on ?_ hnd
    intro e1 h1 e2 h2 h
    have := congrArg (List.map Int.ofNat) h
    rwa [ofNat_toNat_of_perm n e1 ((hmem e1).1 h1),
      ofNat_toNat_of_perm n e2 ((hmem e2).1 h2)] at this
  · intro p
    constructor
    · intro hp
      obtain ⟨e, he, rfl⟩ := List.mem_map.1 hp
      have := ((hmem e).1 he).map Int.toNat
      rwa [toNat_indexSeq] at this
    · intro hp
      refine List.mem_map.2 ⟨p.map Int.ofNat, (hmem _).2 (hp.map Int.ofNat), ?_⟩
      rw [List.map_map]
      conv_rhs => rw [← List.map_id p]
      apply List.map_congr_left
      intro k _
      simp

theorem emissions_perm_all (S : List Int) :
    (S :: (genTail S.length S).1).Perm S.permutations := by
  have hall := emissions_perm_permutations (indexSeq S.length) (indexSeq_nodup S.length)
  rw [indexSeq_length] at hall
  have h := genTail_map (fun z => S.getD z.toNat 0) S.length (indexSeq S.length)
  rw [map_indexSeq] at h
  have h2 := hall.map (List.map (fun z => S.getD z.toNat 0))
  rw [List.map_permutations, map_indexSeq, List.map_cons, map_indexSeq] at h2
  rw [h]
  exact h2

/-! ### The claims -/

/-- C1: for every input `S` of length `n ≥ 0` the run returns, and there is a list `idxs`
of index lists that contains every permutation of `0 .. n-1` exactly once (no repeats,
`n!` entries) such that the emissions are, in order, `S` read through the entries of
`idxs`; hence the emissions are, as a multiset, the `n!` rearrangements of `S`, and when
the elements of `S` are pairwise distinct no emission is repeated and every ordering of
`S` is emitted. -/
theorem heaps_emits_each_index_permutation_once (S : List Int) :
    ∃ (s : HState) (idxs : List (List Nat)),
      heaps_algorithm S S.length = some s ∧
      idxs.Nodup ∧ (∀ p : List Nat, p ∈ idxs ↔ p.Perm (List.range S.length)) ∧
      idxs.length = S.length.factorial ∧
      s.ems = idxs.map (readThrough S) ∧
      s.ems.Perm S.permutations ∧
      (S.Nodup → s.ems.Nodup ∧ ∀ p : List Int, p.Perm S → p ∈ s.ems) := by
  refine ⟨_, _, heaps_algorithm_eq S, (indexLists_spec S.length).1,
    (indexLists_spec S.length).2, ?_, emissions_eq_map S, emissions_perm_all S, ?_⟩
  · have g5 := (genTail_spec S.length (indexSeq S.length)
      (by rw [indexSeq_length])).2.2.2.2
    rw [List.length_map, List.length_cons, g5]
  · intro hnd
    have hall := emissions_perm_all S
    refine ⟨hall.nodup_iff.2 (List.nodup_permutations S hnd), ?_⟩
    intro p hp
    exact hall.mem_iff.2 (List.mem_permutations.2 hp)

/-- C2: for every input of length `n ≥ 0` the run returns having made exactly `n!`
emissions, one initial emission plus one per swap, so `n! - 1` swaps in total. -/
theorem heaps_emission_count (S : List Int) :
    ∃ s : HState, heaps_algorithm S S.length = some s ∧
      s.ems.length = S.length.factorial ∧ s.ems.length = 1 + s.swaps ∧
      s.swaps = S.length.factorial - 1 := by
  have g5 := (genTail_spec S.length S (le_refl _)).2.2.2.2
  refine ⟨_, heaps_algorithm_eq S, ?_, ?_, ?_⟩
  · simp only [List.length_cons]; omega
  · simp only [List.length_cons]; omega
  · simp only; omega

/-- C3: for every input of length `n ≥ 1` the run returns, and both its sequence of
emissions and its final array are those of recursive Heap's algorithm `gen n S`. -/
theorem heaps_refines_recursive_gen (S : List Int) (_hn : 1 ≤ S.length) :
    ∃ s : HState, heaps_algorithm S S.length = some s ∧
      s.ems = (gen S.length S).1 ∧ s.a = (gen S.length S).2 := by
  refine ⟨_, heaps_algorithm_eq S, ?_, ?_⟩
  · rw [gen_eq]
  · rw [gen_eq]

theorem heaps_refines_recursive_gen_witness :
    1 ≤ [4, 5, 6].length ∧
      ∃ s : HState, heaps_algorithm [4, 5, 6] [4, 5, 6].length = some s ∧
        s.ems = (gen [4, 5, 6].length [4, 5, 6]).1 ∧
        s.a = (gen [4, 5, 6].length [4, 5, 6]).2 :=
  ⟨by decide, heaps_refines_recursive_gen [4, 5, 6] (by decide)⟩

/-- C4: for every input of length `n ≥ 2` the run returns, and any two consecutive
emissions `P`, `Q` differ by one transposition: there are `p < q < n` with
`Q[p] = P[q]`, `Q[q] = P[p]` and `Q[k] = P[k]` at every other index. -/
theorem heaps_consecutive_transposition (S : List Int) (_hn : 2 ≤ S.length) :
    ∃ s : HState, heaps_algorithm S S.length = some s ∧
      ∀ (k : Nat) (P Q : List Int), s.ems[k]? = some P → s.ems[k + 1]? = some Q →
        P.length = S.length ∧ Q.length = S.length ∧
          ∃ p q, p < q ∧ q < S.length ∧ Q[p]? = P[q]? ∧ Q[q]? = P[p]? ∧
            ∀ j, j ≠ p → j ≠ q → Q[j]? = P[j]? := by
  refine ⟨_, heaps_algorithm_eq S, ?_⟩
  intro k P Q hP hQ
  exact chain_getElem? (SwapOf S.length) _ k P Q (emissions_chain S) hP hQ

theorem heaps_consecutive_transposition_witness :
    2 ≤ [4, 5, 6].length ∧
      ∃ s : HState, heaps_algorithm [4, 5, 6] [4, 5, 6].length = some s ∧
        ∀ (k : Nat) (P Q : List Int), s.ems[k]? = some P → s.ems[k + 1]? = some Q →
          P.length = [4, 5, 6].length ∧ Q.length = [4, 5, 6].length ∧
            ∃ p q, p < q ∧ q < [4, 5, 6].length ∧ Q[p]? = P[q]? ∧ Q[q]? = P[p]? ∧
              ∀ j, j ≠ p → j ≠ q → Q[j]? = P[j]? :=
  ⟨by decide, heaps_consecutive_transposition [4, 5, 6] (by decide)⟩

/-- C5, as stated, fails: on the input `[1, 1]` of length 2 the run emits `[1, 1]` twice
in a row, so it is not true that consecutive emissions always differ. -/
theorem heaps_consecutive_identical_on_duplicates :
    ¬ ∀ S : List Int, 2 ≤ S.length → ∀ s : HState, heaps_algorithm S S.length = some s →
      ∀ (k : Nat) (P Q : List Int), s.ems[k]? = some P → s.ems[k + 1]? = some Q → P ≠ Q :=
  fun h => h [1, 1] (by decide) ⟨[1, 1], [0, 0], 2, "1 1\n1 1\n", [[1, 1], [1, 1]], 1⟩
    (by decide) 0 [1, 1] [1, 1] (by decide) (by decide) rfl

/-- C5, amended: for every input of length `n ≥ 2` whose elements are pairwise distinct,
the run returns and no two consecutive emissions are identical. -/
theorem heaps_consecutive_distinct (S : List Int) (_hn : 2 ≤ S.length) (hnd : S.Nodup) :
    ∃ s : HState, heaps_algorithm S S.length = some s ∧
      ∀ (k : Nat) (P Q : List Int), s.ems[k]? = some P → s.ems[k + 1]? = some Q →
        P ≠ Q := by
  refine ⟨_, heaps_algorithm_eq S, ?_⟩
  intro k P Q hP hQ hPQ
  obtain ⟨hlen, _, p, q, hpq, hq, h1, _, _⟩ :=
    chain_getElem? (SwapOf S.length) _ k P Q (emissions_chain S) hP hQ
  have hmem : P ∈ S :: (genTail S.length S).1 := List.getElem?_mem hP
  have hperm : P.Perm S := by
    rcases List.mem_cons.1 hmem with h | h
    · rw [h]
    · exact ((genTail_spec S.length S (le_refl _)).2.2.1 P h).1
  have hPnd : P.Nodup := hperm.nodup_iff.2 hnd
  rw [← hPQ] at h1
  have := List.getElem?_inj (by omega) hPnd h1
  omega

theorem heaps_consecutive_distinct_witness :
    2 ≤ [4, 5, 6].length ∧ [4, 5, 6].Nodup ∧
      ∃ s : HState, heaps_algorithm [4, 5, 6] [4, 5, 6].length = some s ∧
        ∀ (k : Nat) (P Q : List Int), s.ems[k]? = some P → s.ems[k + 1]? = some Q →
          P ≠ Q :=
  ⟨by decide, by decide, heaps_consecutive_distinct [4, 5, 6] (by decide) (by decide)⟩

/-- C6: every three-element input `[x, y, z]` makes the run return with exactly the six
emissions `[x,y,z]`, `[y,x,z]`, `[z,x,y]`, `[x,z,y]`, `[y,z,x]`, `[z,y,x]`, in this order;
on `[1, 2, 3]` the text written is the six lines `1 2 3`, `2 1 3`, `3 1 2`, `1 3 2`,
`2 3 1`, `3 2 1`. -/
theorem heaps_three_elements :
    (∀ x y z : Int, (heaps_algorithm [x, y, z] 3).map HState.ems =
      some [[x, y, z], [y, x, z], [z, x, y], [x, z, y], [y, z, x], [z, y, x]]) ∧
    (heaps_algorithm [1, 2, 3] 3).map HState.out =
      some "1 2 3\n2 1 3\n3 1 2\n1 3 2\n2 3 1\n3 2 1\n" := by
  constructor
  · intro x y z
    rw [show (3 : Nat) = [x, y, z].length from rfl, heaps_algorithm_eq]
    simp [genTail, rounds, swapPos, swapAt]
  · decide

/-- C7: every one-element input `[x]` makes the run return with the single emission
`[x]`, no swap performed and the array unchanged; on `[7]` the text written is the one
line `7`. -/
theorem heaps_one_element :
    (∀ x : Int, ∃ s : HState, heaps_algorithm [x] 1 = some s ∧
      s.ems = [[x]] ∧ s.swaps = 0 ∧ s.a = [x]) ∧
    (heaps_algorithm [7] 1).map HState.out = some "7\n" := by
  constructor
  · intro x
    refine ⟨_, heaps_algorithm_eq [x], rfl, rfl, rfl⟩
  · decide

/-- C8: every two-element input `[x, y]` makes the run return with exactly the two
emissions `[x, y]` then `[y, x]`; on `[1, 2]` the text written is `1 2` then `2 1`. -/
theorem heaps_two_elements :
    (∀ x y : Int, (heaps_algorithm [x, y] 2).map HState.ems = some [[x, y], [y, x]]) ∧
    (heaps_algorithm [1, 2] 2).map HState.out = some "1 2\n2 1\n" := by
  constructor
  · intro x y
    rw [show (2 : Nat) = [x, y].length from rfl, heaps_algorithm_eq]
    simp [genTail, rounds, swapPos, swapAt]
  · decide

/-- C9, as stated, fails: on the empty input the text written is not a single line
terminator. -/
theorem heaps_empty_input_not_one_line :
    (heaps_algorithm [] 0).map HState.out ≠ some "\n" := by
  decide

/-- C9, amended: on the empty input the run returns after a single `printArray` call
on the empty sequence, and the text written is empty: no line terminator is written. -/
theorem heaps_empty_input_writes_nothing :
    (heaps_algorithm [] 0).map HState.out = some "" ∧
      (heaps_algorithm [] 0).map HState.ems = some [[]] ∧
      printArray [] 0 "" = some "" := by
  decide

/-- C10: for every array `a` holding at least `n ≥ 1` elements, `printArray(a, n)` appends
to the text exactly the decimal renderings of `a[0], ..., a[n-1]` joined by single spaces
and followed by one line terminator; consequently, for an input of length `n ≥ 1`, the
whole text written by the run is the concatenation, in generation order, of one such line
per emission. -/
theorem printArray_line_and_output (a : List Int) (n : Nat) (out : String) (h1 : 1 ≤ n)
    (hn : n ≤ a.length) :
    printArray a n out =
        some (out ++ (" ".intercalate ((a.take n).map showInt) ++ "\n")) ∧
      ∀ S : List Int, S.length = n →
        ∃ s : HState, heaps_algorithm S S.length = some s ∧ s.out = textOf s.ems := by
  refine ⟨printArray_eq a n out h1 hn, ?_⟩
  intro S hS
  refine ⟨_, heaps_algorithm_eq S, ?_⟩
  show _ = textOf (S :: (genTail S.length S).1)
  rw [if_neg (by omega : ¬(S.length = 0))]
  rfl

theorem printArray_line_and_output_witness :
    1 ≤ 2 ∧ 2 ≤ [3, -4, 5].length ∧
      (printArray [3, -4, 5] 2 "" =
          some ("" ++ (" ".intercalate (([3, -4, 5].take 2).map showInt) ++ "\n")) ∧
        ∀ S : List Int, S.length = 2 →
          ∃ s : HState, heaps_algorithm S S.length = some s ∧ s.out = textOf s.ems) :=
  ⟨by decide, by decide, printArray_line_and_output [3, -4, 5] 2 "" (by decide) (by decide)⟩

/-! ### Invariants of the reachable states -/

theorem initState_eq (S : List Int) :
    initState S S.length =
      some ⟨S, List.replicate S.length 0, 0, (if S.length = 0 then "" else lineOf S), [S],
        0⟩ := by
  have hp : printArray S S.length "" = some (if S.length = 0 then "" else lineOf S) := by
    by_cases h0 : S.length = 0
    · rw [if_pos h0, h0, printArray_zero]
    · rw [printArray_eq S S.length "" (by omega) (le_refl _), if_neg h0, List.take_length,
        String.empty_append]
  unfold initState
  simp only [hp, List.take_length]

theorem getD_set_ne (cs : List Nat) (i k v : Nat) (h : k ≠ i) :
    (cs.set i v).getD k 0 = cs.getD k 0 := by
  rw [List.getD_eq_getElem?_getD, List.getD_eq_getElem?_getD,
    List.getElem?_set_ne (fun e => h e.symm)]

theorem getD_set_self (cs : List Nat) (i v : Nat) (h : i < cs.length) :
    (cs.set i v).getD i 0 = v := by
  rw [List.getD_eq_getElem?_getD, List.getElem?_set_self h]
  rfl

theorem getD_of_getElem? (cs : List Nat) (i v : Nat) (h : cs[i]? = some v) :
    cs.getD i 0 = v := by
  rw [List.getD_eq_getElem?_getD, h]
  rfl

theorem counter_next (n i : Nat) (cs : List Nat) (hi : i < n) (hci : cs[i]? = some i) :
    (i + 1).factorial +
        Finset.sum (Finset.Ico (i + 1) n) (fun k => (cs.set i 0).getD k 0 * k.factorial) =
      i.factorial + Finset.sum (Finset.Ico i n) (fun k => cs.getD k 0 * k.factorial) := by
  rw [Finset.sum_eq_sum_Ico_succ_bot hi, getD_of_getElem? cs i i hci, Nat.factorial_succ]
  have e : Finset.sum (Finset.Ico (i + 1) n) (fun k => (cs.set i 0).getD k 0 * k.factorial) =
      Finset.sum (Finset.Ico (i + 1) n) (fun k => cs.getD k 0 * k.factorial) := by
    apply Finset.sum_congr rfl
    intro k hk
    rw [getD_set_ne cs i k 0 (by have := (Finset.mem_Ico.1 hk).1; omega)]
  rw [e]
  ring

theorem counter_swap (n i ci : Nat) (cs : List Nat) (hi : i < n) (hlen : cs.length = n)
    (hci : cs[i]? = some ci) (hz : ∀ j, j < i → cs[j]? = some 0) :
    (0 : Nat).factorial +
        Finset.sum (Finset.Ico 0 n)
          (fun k => (cs.set i (ci + 1)).getD k 0 * k.factorial) =
      i.factorial + Finset.sum (Finset.Ico i n) (fun k => cs.getD k 0 * k.factorial) + 1 := by
  rw [← Finset.sum_Ico_consecutive _ (Nat.zero_le i) (le_of_lt hi),
    Finset.sum_eq_sum_Ico_succ_bot hi, Finset.sum_eq_sum_Ico_succ_bot hi,
    getD_set_self cs i (ci + 1) (by omega), getD_of_getElem? cs i ci hci]
  have e0 : Finset.sum (Finset.Ico 0 i)
      (fun k => (cs.set i (ci + 1)).getD k 0 * k.factorial) = 0 := by
    apply Finset.sum_eq_zero
    intro k hk
    have hk1 : k < i := (Finset.mem_Ico.1 hk).2
    rw [getD_set_ne cs i k _ (by omega), getD_of_getElem? cs k 0 (hz k hk1), Nat.zero_mul]
  have e1 : Finset.sum (Finset.Ico (i + 1) n)
      (fun k => (cs.set i (ci + 1)).getD k 0 * k.factorial) =
      Finset.sum (Finset.Ico (i + 1) n) (fun k => cs.getD k 0 * k.factorial) := by
    apply Finset.sum_congr rfl
    intro k hk
    rw [getD_set_ne cs i k _ (by have := (Finset.mem_Ico.1 hk).1; omega)]
  rw [e0, e1, Nat.factorial_zero]
  ring

theorem init_loopInv (S : List Int) (out : String) :
    LoopInv S.length ⟨S, List.replicate S.length 0, 0, out, [S], 0⟩ := by
  refine ⟨rfl, List.length_replicate _ _, Nat.zero_le _, ?_, ?_, rfl, ?_⟩
  · intro k v h
    rw [List.getElem?_replicate] at h
    split at h
    · cases h; exact Nat.zero_le _
    · cases h
  · intro j hj
    exact absurd hj (Nat.not_lt_zero j)
  · show 1 = Nat.factorial 0 + Finset.sum (Finset.Ico 0 S.length)
      (fun k => (List.replicate S.length 0).getD k 0 * k.factorial)
    have e : Finset.sum (Finset.Ico 0 S.length)
        (fun k => (List.replicate S.length 0).getD k 0 * k.factorial) = 0 := by
      apply Finset.sum_eq_zero
      intro k hk
      have hk1 : k < S.length := (Finset.mem_Ico.1 hk).2
      rw [List.getD_eq_getElem?_getD, List.getElem?_replicate, if_pos hk1]
      exact Nat.zero_mul _
    rw [e, Nat.factorial_zero]

theorem loopBody_loopInv (n : Nat) (s t : HState) (hi : s.i < n) (hinv : LoopInv n s)
    (h : loopBody n s = some t) : LoopInv n t := by
  obtain ⟨ha, hc, _, hb, hz, hsw, hcnt⟩ := hinv
  have hic : s.i < s.c.length := by omega
  have hci : s.c[s.i]? = some s.c[s.i] := List.getElem?_eq_getElem hic
  by_cases hj : s.c[s.i] < s.i
  · rw [loopBody_swap n _ s hi hci hj ha] at h
    cases h
    refine ⟨by simp only [swapPos_length]; exact ha, by simp only [List.length_set]; exact hc,
      Nat.zero_le _, ?_, ?_, ?_, ?_⟩
    · intro k v hk
      by_cases hik : s.i = k
      · subst hik
        rw [List.getElem?_set_self hic] at hk
        cases hk
        omega
      · rw [List.getElem?_set_ne hik] at hk
        exact hb k v hk
    · intro j hj0
      exact absurd hj0 (Nat.not_lt_zero j)
    · simp only [List.length_append, List.length_singleton]
      omega
    · simp only [List.length_append, List.length_singleton]
      unfold counterValue at hcnt ⊢
      simp only
      rw [counter_swap n s.i _ s.c hi hc hci hz]
      omega
  · rw [loopBody_next n _ s hci hj] at h
    cases h
    have hci1 : s.c[s.i] = s.i := by have := hb s.i _ hci; omega
    refine ⟨ha, by simp only [List.length_set]; exact hc, hi, ?_, ?_, hsw, ?_⟩
    · intro k v hk
      by_cases hik : s.i = k
      · subst hik
        rw [List.getElem?_set_self hic] at hk
        cases hk
        exact Nat.zero_le _
      · rw [List.getElem?_set_ne hik] at hk
        exact hb k v hk
    · intro j hj1
      by_cases hik : s.i = j
      · subst hik
        exact List.getElem?_set_self hic
      · show (s.c.set s.i 0)[j]? = some 0
        rw [List.getElem?_set_ne hik]
        exact hz j (by have : j < s.i + 1 := hj1; omega)
    · unfold counterValue at hcnt ⊢
      simp only
      rw [counter_next n s.i s.c hi (by rw [hci, hci1])]
      exact hcnt

theorem runSteps_loopInv (n : Nat) : ∀ k (s t : HState), runSteps n k s = some t →
    LoopInv n s → LoopInv n t := by
  intro k
  induction k with
  | zero =>
    intro s t h hinv
    simp only [runSteps, Option.some.injEq] at h
    rw [← h]; exact hinv
  | succ k ih =>
    intro s t h hinv
    simp only [runSteps] at h
    split at h
    · rename_i hi
      cases hb : loopBody n s with
      | none => rw [hb] at h; cases h
      | some s1 =>
        rw [hb] at h
        exact ih s1 t h (loopBody_loopInv n s s1 hi hinv hb)
    · cases h

theorem reachable_loopInv (S : List Int) (s : HState) (h : Reachable S s) :
    LoopInv S.length s := by
  obtain ⟨s0, k, h0, hk⟩ := h
  rw [initState_eq] at h0
  cases h0
  exact runSteps_loopInv S.length k _ s hk (init_loopInv S _)

theorem loopBody_isSome (n : Nat) (s : HState) (hi : s.i < n) (hinv : LoopInv n s) :
    ∃ t, loopBody n s = some t := by
  obtain ⟨ha, hc, _, _, _, _, _⟩ := hinv
  have hic : s.i < s.c.length := by omega
  have hci : s.c[s.i]? = some s.c[s.i] := List.getElem?_eq_getElem hic
  by_cases hj : s.c[s.i] < s.i
  · exact ⟨_, loopBody_swap n _ s hi hci hj ha⟩
  · exact ⟨_, loopBody_next n _ s hci hj⟩

theorem final_reachable (S : List Int) :
    Reachable S ⟨(genTail S.length S).2, List.replicate S.length 0, S.length,
        (if S.length = 0 then "" else lineOf S) ++ textOf (genTail S.length S).1,
        S :: (genTail S.length S).1, (genTail S.length S).1.length⟩ := by
  have hrun := climbRun S.length S.length S (List.replicate S.length 0)
    (if S.length = 0 then "" else lineOf S) [S] 0 rfl (le_refl _)
    (fun k hk => by rw [List.getElem?_replicate, if_pos hk])
  refine ⟨_, loopBound S.length, initState_eq S, ?_⟩
  rw [hrun]
  simp

/-! ### Termination, rearrangement, value independence -/

/-- C11: for every input of length `n ≥ 0` the loop terminates: from the initial state a
finite number `k` of iterations of the loop body reaches a state with `i = n`, the loop
run with any fuel of at least `k` returns that state, and so does `heaps_algorithm`. -/
theorem heaps_loop_terminates (S : List Int) :
    ∃ (s0 : HState) (k : Nat) (t : HState),
      initState S S.length = some s0 ∧ runSteps S.length k s0 = some t ∧
      t.i = S.length ∧ (∀ fuel, k ≤ fuel → whileLoop S.length fuel s0 = some t) ∧
      heaps_algorithm S S.length = some t := by
  have hrun := climbRun S.length S.length S (List.replicate S.length 0)
    (if S.length = 0 then "" else lineOf S) [S] 0 rfl (le_refl _)
    (fun k hk => by rw [List.getElem?_replicate, if_pos hk])
  refine ⟨_, loopBound S.length, _, initState_eq S, hrun, rfl, ?_, ?_⟩
  · intro fuel hf
    have hw := whileLoop_of_runSteps S.length (loopBound S.length) _ _ hrun (by simp)
      (fuel - loopBound S.length)
    rwa [Nat.add_sub_cancel' hf] at hw
  · rw [heaps_algorithm_eq]
    simp

/-- C12: for every input `S` of length `n` the run returns, every emitted sequence has
length `n` and is a rearrangement of `S`, and so is the array left at the end. -/
theorem heaps_emissions_are_rearrangements (S : List Int) :
    ∃ s : HState, heaps_algorithm S S.length = some s ∧
      (∀ e ∈ s.ems, e.length = S.length ∧ e.Perm S) ∧
      s.a.length = S.length ∧ s.a.Perm S := by
  obtain ⟨g1, _, g3, _, _⟩ := genTail_spec S.length S (le_refl _)
  refine ⟨_, heaps_algorithm_eq S, ?_, g1.length_eq, g1⟩
  intro e he
  rcases List.mem_cons.1 he with h | h
  · rw [h]; exact ⟨rfl, List.Perm.refl _⟩
  · exact ⟨(g3 e h).1.length_eq, (g3 e h).1⟩

/-- C13: for every sequence `S` of length `n` and every function `f` on elements, the runs
on `S`, on `map f S` and on the index sequence `0 .. n-1` all return; the run on `map f S`
emits the emissions for `S` with `f` applied elementwise, in the same order, takes the same
number of swaps and ends with the final array for `S` mapped by `f`; and the emissions for
`S` are `S` read through the emissions for the index sequence, in the same order. -/
theorem heaps_swaps_independent_of_values (S : List Int) (f : Int → Int) :
    ∃ s t u : HState,
      heaps_algorithm S S.length = some s ∧
      heaps_algorithm (S.map f) (S.map f).length = some t ∧
      heaps_algorithm (indexSeq S.length) (indexSeq S.length).length = some u ∧
      t.ems = s.ems.map (List.map f) ∧ t.a = s.a.map f ∧ t.swaps = s.swaps ∧
      s.ems = u.ems.map (fun e => readThrough S (e.map Int.toNat)) ∧
      ∀ k : Nat,
        s.ems[k]? = (u.ems[k]?).map (fun e : List Int => readThrough S (e.map Int.toNat)) := by
  have hm := genTail_map f S.length S
  have hidx := emissions_eq_map S
  rw [List.map_map] at hidx
  refine ⟨_, _, _, heaps_algorithm_eq S, heaps_algorithm_eq (S.map f),
    heaps_algorithm_eq (indexSeq S.length), ?_, ?_, ?_, ?_, ?_⟩
  · simp only [List.length_map, hm, List.map_cons]
  · simp only [List.length_map, hm]
  · simp only [List.length_map, hm]
  · simp only [indexSeq_length]
    exact hidx
  · intro k
    simp only [indexSeq_length]
    rw [hidx, List.getElem?_map]
    rfl

/-! ### The reachable states -/

/-- C15: in every state reachable from the initial state, every control entry `c[k]` with
`k < n` satisfies `0 ≤ c[k] ≤ k`. -/
theorem control_entries_bounded (S : List Int) (s : HState) (h : Reachable S s) :
    ∀ k, k < S.length → ∃ v, s.c[k]? = some v ∧ 0 ≤ v ∧ v ≤ k := by
  obtain ⟨_, hc, _, hb, _, _, _⟩ := reachable_loopInv S s h
  intro k hk
  have hkc : k < s.c.length := by omega
  exact ⟨s.c[k], List.getElem?_eq_getElem hkc, Nat.zero_le _,
    hb k _ (List.getElem?_eq_getElem hkc)⟩

theorem control_entries_bounded_witness :
    Reachable [4, 5, 6]
        ⟨[5, 4, 6], [0, 1, 0], 0, "4 5 6\n5 4 6\n", [[4, 5, 6], [5, 4, 6]], 1⟩ ∧
      ∀ k, k < [4, 5, 6].length →
        ∃ v, (HState.mk [5, 4, 6] [0, 1, 0] 0 "4 5 6\n5 4 6\n"
          [[4, 5, 6], [5, 4, 6]] 1).c[k]? = some v ∧ 0 ≤ v ∧ v ≤ k :=
  ⟨⟨⟨[4, 5, 6], [0, 0, 0], 0, "4 5 6\n", [[4, 5, 6]], 0⟩, 2, by decide, by decide⟩,
    control_entries_bounded [4, 5, 6] _
      ⟨⟨[4, 5, 6], [0, 0, 0], 0, "4 5 6\n", [[4, 5, 6]], 0⟩, 2, by decide, by decide⟩⟩

/-- C16: the run never leaves the arrays: the initial call and the whole run return, and
in every reachable state in which the loop body runs (`i < n`) the reads of `c[i]` and
`a[i]` are in range and the body returns; when a swap is taken on an odd `i`,
`c[i] < i < n`, so `a[c[i]]` is in range and at another position than `a[i]`; when a swap is
taken on an even `i`, `i ≥ 2`, so `a[0]` is in range and at another position than `a[i]`. -/
theorem array_accesses_in_bounds (S : List Int) (s : HState) (h : Reachable S s)
    (hi : s.i < S.length) :
    (initState S S.length).isSome ∧ (heaps_algorithm S S.length).isSome ∧
    ∃ (ci : Nat) (t : HState), s.c[s.i]? = some ci ∧ (s.a[s.i]?).isSome ∧
      loopBody S.length s = some t ∧
      (ci < s.i → s.i % 2 = 1 →
        ci < S.length ∧ (s.a[ci]?).isSome ∧ ci ≠ s.i ∧ (swapAt s.a ci s.i).isSome) ∧
      (ci < s.i → s.i % 2 = 0 →
        2 ≤ s.i ∧ (s.a[0]?).isSome ∧ 0 ≠ s.i ∧ (swapAt s.a 0 s.i).isSome) := by
  have hinv := reachable_loopInv S s h
  obtain ⟨t, ht⟩ := loopBody_isSome S.length s hi hinv
  obtain ⟨ha, hc, _, _, _, _, _⟩ := hinv
  have hic : s.i < s.c.length := by omega
  have hia : s.i < s.a.length := by omega
  refine ⟨by rw [initState_eq]; rfl, by rw [heaps_algorithm_eq]; rfl, s.c[s.i], t,
    List.getElem?_eq_getElem hic, by rw [List.getElem?_eq_getElem hia]; rfl, ht, ?_, ?_⟩
  · intro hlt _
    have hca : s.c[s.i] < s.a.length := by omega
    refine ⟨by omega, by rw [List.getElem?_eq_getElem hca]; rfl, by omega, ?_⟩
    rw [swapAt_eq_some s.a _ _ hca hia]; rfl
  · intro hlt hev
    have h0 : 0 < s.a.length := by omega
    refine ⟨by omega, by rw [List.getElem?_eq_getElem h0]; rfl, by omega, ?_⟩
    rw [swapAt_eq_some s.a _ _ h0 hia]; rfl

theorem array_accesses_in_bounds_witness :
    Reachable [4, 5, 6] ⟨[4, 5, 6], [0, 0, 0], 1, "4 5 6\n", [[4, 5, 6]], 0⟩ ∧
      (HState.mk [4, 5, 6] [0, 0, 0] 1 "4 5 6\n" [[4, 5, 6]] 0).i < [4, 5, 6].length ∧
      ((initState [4, 5, 6] [4, 5, 6].length).isSome ∧
        (heaps_algorithm [4, 5, 6] [4, 5, 6].length).isSome ∧
        ∃ (ci : Nat) (t : HState),
          (HState.mk [4, 5, 6] [0, 0, 0] 1 "4 5 6\n" [[4, 5, 6]] 0).c[1]? = some ci ∧
          ((HState.mk [4, 5, 6] [0, 0, 0] 1 "4 5 6\n" [[4, 5, 6]] 0).a[1]?).isSome ∧
          loopBody [4, 5, 6].length ⟨[4, 5, 6], [0, 0, 0], 1, "4 5 6\n", [[4, 5, 6]], 0⟩ =
            some t ∧
          (ci < 1 → 1 % 2 = 1 →
            ci < [4, 5, 6].length ∧ (([4, 5, 6] : List Int)[ci]?).isSome ∧ ci ≠ 1 ∧
              (swapAt [4, 5, 6] ci 1).isSome) ∧
          (ci < 1 → 1 % 2 = 0 →
            2 ≤ 1 ∧ (([4, 5, 6] : List Int)[0]?).isSome ∧ 0 ≠ 1 ∧
              (swapAt [4, 5, 6] 0 1).isSome)) :=
  ⟨⟨⟨[4, 5, 6], [0, 0, 0], 0, "4 5 6\n", [[4, 5, 6]], 0⟩, 1, by decide, by decide⟩,
    by decide,
    array_accesses_in_bounds [4, 5, 6] _
      ⟨⟨[4, 5, 6], [0, 0, 0], 0, "4 5 6\n", [[4, 5, 6]], 0⟩, 1, by decide, by decide⟩
      (by decide)⟩

/-- C17: at every evaluation of the loop condition, every control entry below the cursor
is zero; a reachable state in which the loop exits has cursor `n` and an all-zero control
array, and the run does return such a state. -/
theorem control_zero_below_cursor (S : List Int) (s : HState) (h : Reachable S s) :
    (∀ j, j < s.i → s.c[j]? = some 0) ∧
    (¬ s.i < S.length → s.i = S.length ∧ s.c = List.replicate S.length 0) ∧
    ∃ t : HState, heaps_algorithm S S.length = some t ∧ Reachable S t ∧
      t.i = S.length ∧ t.c = List.replicate S.length 0 := by
  obtain ⟨_, hc, hile, _, hz, _, _⟩ := reachable_loopInv S s h
  refine ⟨hz, ?_, _, heaps_algorithm_eq S, final_reachable S, rfl, rfl⟩
  intro hex
  have hin : s.i = S.length := by omega
  refine ⟨hin, ?_⟩
  apply List.ext_getElem?
  intro k
  rw [List.getElem?_replicate]
  split
  · rename_i hk
    exact hz k (by omega)
  · rename_i hk
    exact List.getElem?_eq_none (by omega)

theorem control_zero_below_cursor_witness :
    Reachable [4, 5, 6]
        ⟨[5, 4, 6], [0, 0, 0], 2, "4 5 6\n5 4 6\n", [[4, 5, 6], [5, 4, 6]], 1⟩ ∧
      ((∀ j, j < (HState.mk [5, 4, 6] [0, 0, 0] 2 "4 5 6\n5 4 6\n"
            [[4, 5, 6], [5, 4, 6]] 1).i →
          (HState.mk [5, 4, 6] [0, 0, 0] 2 "4 5 6\n5 4 6\n"
            [[4, 5, 6], [5, 4, 6]] 1).c[j]? = some 0) ∧
        (¬ (HState.mk [5, 4, 6] [0, 0, 0] 2 "4 5 6\n5 4 6\n"
              [[4, 5, 6], [5, 4, 6]] 1).i < [4, 5, 6].length →
          (HState.mk [5, 4, 6] [0, 0, 0] 2 "4 5 6\n5 4 6\n"
              [[4, 5, 6], [5, 4, 6]] 1).i = [4, 5, 6].length ∧
            (HState.mk [5, 4, 6] [0, 0, 0] 2 "4 5 6\n5 4 6\n"
              [[4, 5, 6], [5, 4, 6]] 1).c = List.replicate [4, 5, 6].length 0) ∧
        ∃ t : HState, heaps_algorithm [4, 5, 6] [4, 5, 6].length = some t ∧
          Reachable [4, 5, 6] t ∧ t.i = [4, 5, 6].length ∧
          t.c = List.replicate [4, 5, 6].length 0) :=
  ⟨⟨⟨[4, 5, 6], [0, 0, 0], 0, "4 5 6\n", [[4, 5, 6]], 0⟩, 4, by decide, by decide⟩,
    control_zero_below_cursor [4, 5, 6] _
      ⟨⟨[4, 5, 6], [0, 0, 0], 0, "4 5 6\n", [[4, 5, 6]], 0⟩, 4, by decide, by decide⟩⟩

/-- C18: at every evaluation of the loop condition with cursor `i`, the number of
emissions made so far is `i! + Σ_{k = i}^{n-1} c[k] * k!`; in particular, when `i = 0` the
number of swaps made so far is `Σ_k c[k] * k!`. -/
theorem emissions_factorial_counter (S : List Int) (s : HState) (h : Reachable S s) :
    s.ems.length =
        s.i.factorial +
          Finset.sum (Finset.Ico s.i S.length) (fun k => s.c.getD k 0 * k.factorial) ∧
      (s.i = 0 →
        s.swaps = Finset.sum (Finset.Ico 0 S.length) (fun k => s.c.getD k 0 * k.factorial)) := by
  obtain ⟨_, _, _, _, _, hsw, hcnt⟩ := reachable_loopInv S s h
  unfold counterValue at hcnt
  refine ⟨hcnt, ?_⟩
  intro h0
  rw [h0, Nat.factorial_zero] at hcnt
  omega

theorem emissions_factorial_counter_witness :
    Reachable [4, 5, 6]
        ⟨[5, 4, 6], [0, 1, 0], 0, "4 5 6\n5 4 6\n", [[4, 5, 6], [5, 4, 6]], 1⟩ ∧
      ((HState.mk [5, 4, 6] [0, 1, 0] 0 "4 5 6\n5 4 6\n"
            [[4, 5, 6], [5, 4, 6]] 1).ems.length =
          (HState.mk [5, 4, 6] [0, 1, 0] 0 "4 5 6\n5 4 6\n"
            [[4, 5, 6], [5, 4, 6]] 1).i.factorial +
            Finset.sum (Finset.Ico (HState.mk [5, 4, 6] [0, 1, 0] 0 "4 5 6\n5 4 6\n"
              [[4, 5, 6], [5, 4, 6]] 1).i [4, 5, 6].length)
              (fun k => (HState.mk [5, 4, 6] [0, 1, 0] 0 "4 5 6\n5 4 6\n"
                [[4, 5, 6], [5, 4, 6]] 1).c.getD k 0 * k.factorial) ∧
        ((HState.mk [5, 4, 6] [0, 1, 0] 0 "4 5 6\n5 4 6\n"
            [[4, 5, 6], [5, 4, 6]] 1).i = 0 →
          (HState.mk [5, 4, 6] [0, 1, 0] 0 "4 5 6\n5 4 6\n"
            [[4, 5, 6], [5, 4, 6]] 1).swaps =
            Finset.sum (Finset.Ico 0 [4, 5, 6].length)
              (fun k => (HState.mk [5, 4, 6] [0, 1, 0] 0 "4 5 6\n5 4 6\n"
                [[4, 5, 6], [5, 4, 6]] 1).c.getD k 0 * k.factorial))) :=
  ⟨⟨⟨[4, 5, 6], [0, 0, 0], 0, "4 5 6\n", [[4, 5, 6]], 0⟩, 2, by decide, by decide⟩,
    emissions_factorial_counter [4, 5, 6] _
      ⟨⟨[4, 5, 6], [0, 0, 0], 0, "4 5 6\n", [[4, 5, 6]], 0⟩, 2, by decide, by decide⟩⟩

/-! ### Untouched suffix -/

theorem swapPos_append (S T : List Int) (p q : Nat) (hp : p < S.length) (hq : q < S.length) :
    swapPos (S ++ T) p q = swapPos S p q ++ T := by
  have hp1 : p < (S ++ T).length := by rw [List.length_append]; omega
  have hq1 : q < (S ++ T).length := by rw [List.length_append]; omega
  rw [swapPos_eq (S ++ T) p q hp1 hq1, swapPos_eq S p q hp hq,
    List.getElem_append_left hp, List.getElem_append_left hq,
    List.set_append_left p _ hp, List.set_append_left q _ (by rw [List.length_set]; exact hq)]

theorem sig_le (m t : Nat) : sig m t ≤ t := by
  unfold sig; split
  · exact le_refl _
  · exact Nat.zero_le _

theorem rounds_append (L m : Nat) (T : List Int)
    (sub : List Int → List (List Int) × List Int) (hm : m < L)
    (hsub : ∀ A : List Int, A.length = L →
      (sub A).2.length = L ∧ sub (A ++ T) = ((sub A).1.map (fun e => e ++ T), (sub A).2 ++ T)) :
    ∀ cnt j (A : List Int), j + cnt ≤ m → A.length = L →
      rounds sub m cnt j (A ++ T) =
        ((rounds sub m cnt j A).1.map (fun e => e ++ T), (rounds sub m cnt j A).2 ++ T) := by
  intro cnt
  induction cnt with
  | zero => intro j A _ _; rfl
  | succ cnt ih =>
    intro j A hj hA
    have hs : sig m j < A.length := by have := sig_le m j; omega
    have hl1 : (swapPos A (sig m j) m).length = L := by rw [swapPos_length]; exact hA
    obtain ⟨h1, h2⟩ := hsub _ hl1
    rw [rounds_succ, rounds_succ, swapPos_append A T _ _ hs (by omega), h2]
    simp only [ih (j + 1) _ (by omega) h1, List.map_cons, List.map_append]

theorem genTail_append (T : List Int) (m : Nat) :
    ∀ A : List Int, m ≤ A.length →
      genTail m (A ++ T) = ((genTail m A).1.map (fun e => e ++ T), (genTail m A).2 ++ T) := by
  induction m with
  | zero => intro A _; rfl
  | succ m ih =>
    intro A hA
    have hlen : (genTail m A).2.length = A.length :=
      (genTail_spec m A (by omega)).1.length_eq
    have hr := rounds_append A.length m T (genTail m) (by omega)
      (fun B hB => ⟨by rw [(genTail_spec m B (by omega)).1.length_eq]; exact hB,
        ih B (by omega)⟩) m 0 (genTail m A).2 (by omega) hlen
    rw [genTail_succ, genTail_succ, ih A (by omega)]
    simp only [hr, List.map_append]

theorem genTail_add (k : Nat) (A : List Int) :
    ∀ j, ∃ rest, (genTail (k + j) A).1 = (genTail k A).1 ++ rest := by
  intro j
  induction j with
  | zero => exact ⟨[], by simp⟩
  | succ j ih =>
    obtain ⟨rest, hrest⟩ := ih
    refine ⟨rest ++ (rounds (genTail (k + j)) (k + j) (k + j) 0 (genTail (k + j) A).2).1, ?_⟩
    rw [show k + (j + 1) = (k + j) + 1 from rfl, genTail_succ]
    simp only [hrest, List.append_assoc]

/-- C19: for every sequence `S` of length `k ≥ 1` and every sequence `T`, the runs on
`S ++ T` and on `S` both return, and the first `k!` emissions of the run on `S ++ T` are
the emissions of the run on `S`, in the same order, each with `T` appended; so in each of
the first `k!` emissions the positions `k` and above still hold `T`. -/
theorem heaps_first_block_leaves_suffix (S T : List Int) (_hk : 1 ≤ S.length) :
    ∃ s u : HState,
      heaps_algorithm (S ++ T) (S ++ T).length = some s ∧
      heaps_algorithm S S.length = some u ∧
      u.ems.length = S.length.factorial ∧
      s.ems.take S.length.factorial = u.ems.map (fun e => e ++ T) ∧
      ∀ (j : Nat) (e : List Int), j < S.length.factorial → s.ems[j]? = some e →
        e.take S.length ∈ u.ems ∧ e.drop S.length = T := by
  obtain ⟨_, _, g3, _, g5⟩ := genTail_spec S.length S (le_refl _)
  obtain ⟨rest, hrest⟩ := genTail_add S.length (S ++ T) T.length
  have hlen : (S :: (genTail S.length S).1).length = S.length.factorial := by
    rw [List.length_cons, g5]
  have hems : (S ++ T) :: (genTail (S ++ T).length (S ++ T)).1 =
      (S :: (genTail S.length S).1).map (fun e => e ++ T) ++ rest := by
    rw [List.length_append, hrest, genTail_append T S.length S (le_refl _)]
    rfl
  have htake : ((S ++ T) :: (genTail (S ++ T).length (S ++ T)).1).take S.length.factorial =
      (S :: (genTail S.length S).1).map (fun e => e ++ T) := by
    rw [hems, List.take_left' (by rw [List.length_map, hlen])]
  refine ⟨_, _, heaps_algorithm_eq (S ++ T), heaps_algorithm_eq S, hlen, htake, ?_⟩
  intro j e hj he
  have h1 : (((S ++ T) :: (genTail (S ++ T).length (S ++ T)).1).take
      S.length.factorial)[j]? = some e := by
    rw [List.getElem?_take_of_lt hj]; exact he
  rw [htake] at h1
  have hmem := List.getElem?_mem h1
  obtain ⟨e0, he0, rfl⟩ := List.mem_map.1 hmem
  have hl0 : e0.length = S.length := by
    rcases List.mem_cons.1 he0 with h | h
    · rw [h]
    · exact (g3 e0 h).1.length_eq
  exact ⟨by rw [List.take_left' hl0]; exact he0, List.drop_left' hl0⟩

theorem heaps_first_block_leaves_suffix_witness :
    1 ≤ [4, 5].length ∧
      ∃ s u : HState,
        heaps_algorithm ([4, 5] ++ [6]) ([4, 5] ++ [6]).length = some s ∧
        heaps_algorithm [4, 5] [4, 5].length = some u ∧
        u.ems.length = [4, 5].length.factorial ∧
        s.ems.take [4, 5].length.factorial = u.ems.map (fun e => e ++ [6]) ∧
        ∀ (j : Nat) (e : List Int), j < [4, 5].length.factorial → s.ems[j]? = some e →
          e.take [4, 5].length ∈ u.ems ∧ e.drop [4, 5].length = [6] :=
  ⟨by decide, heaps_first_block_leaves_suffix [4, 5] [6] (by decide)⟩

/-! ### Reading the arguments -/

theorem isDec_iff (c : Char) : isDec c = true ↔ 48 ≤ c.toNat ∧ c.toNat ≤ 57 := by
  unfold isDec
  simp

theorem digitIn_dec (c : Char) (h : isDec c = true) : digitIn 10 c = some (c.toNat - 48) := by
  have h1 := (isDec_iff c).1 h
  unfold digitIn digitVal
  rw [if_pos h1]
  simp only
  rw [if_pos (by omega)]

theorem readDigits_dec (cs : List Char) (h : cs.all isDec = true) (acc : Nat) :
    readDigits 10 cs acc = cs.foldl (fun a c => 10 * a + (c.toNat - 48)) acc := by
  induction cs generalizing acc with
  | nil => rfl
  | cons c cs ih =>
    rw [List.all_cons, Bool.and_eq_true] at h
    simp only [readDigits, digitIn_dec c h.1, List.foldl_cons]
    exact ih h.2 _

theorem scanMagnitude_plain (cs : List Char) (h : plainDigits cs = true) :
    scanMagnitude cs = some (decimalValue cs) := by
  cases cs with
  | nil => cases h
  | cons c rest =>
    unfold plainDigits at h
    rw [Bool.and_eq_true, List.all_cons, Bool.and_eq_true, Bool.or_eq_true] at h
    obtain ⟨⟨hc, hrest⟩, hz⟩ := h
    unfold decimalValue
    by_cases h0 : c.toNat = 48
    · rcases hz with hz | hz
      · simp [h0] at hz
      · have hr : rest = [] := List.isEmpty_iff.1 hz
        subst hr
        simp [scanMagnitude, h0]
    · simp only [scanMagnitude, if_neg h0, digitIn_dec c hc, List.foldl_cons, Nat.mul_zero,
        Nat.zero_add]
      rw [readDigits_dec rest hrest]

theorem plainDigits_head (c : Char) (cs : List Char) (h : plainDigits (c :: cs) = true) :
    isSpaceC c = false ∧ c.toNat ≠ 45 ∧ c.toNat ≠ 43 := by
  unfold plainDigits at h
  rw [Bool.and_eq_true, List.all_cons, Bool.and_eq_true] at h
  have h1 := (isDec_iff c).1 h.1.1
  refine ⟨?_, by omega, by omega⟩
  unfold isSpaceC
  simp
  omega

theorem sscanf_i_plain (arg : String) (h : plainDecimal arg = true) :
    sscanf_i arg = some (base10 arg) := by
  unfold plainDecimal at h
  rw [Bool.and_eq_true, decide_eq_true_eq] at h
  obtain ⟨hshape, hrange⟩ := h
  have hscan : scanSigned (arg.data.dropWhile isSpaceC) = some (base10 arg) := by
    unfold base10
    cases hd : arg.data with
    | nil => rw [hd] at hshape; cases hshape
    | cons c cs =>
      rw [hd] at hshape
      simp only at hshape ⊢
      by_cases hs : c.toNat = 45 ∨ c.toNat = 43
      · rw [if_pos hs] at hshape
        have hsp : isSpaceC c = false := by
          unfold isSpaceC
          rcases hs with hs | hs <;> simp [hs]
        rw [List.dropWhile_cons, hsp]
        simp only [Bool.false_eq_true, if_false]
        rcases hs with hs | hs
        · simp only [scanSigned, if_pos hs, scanMagnitude_plain cs hshape, applySign]
          rfl
        · simp only [scanSigned, if_neg (by omega : ¬(c.toNat = 45)), if_pos hs,
            scanMagnitude_plain cs hshape, applySign]
          rfl
      · rw [if_neg hs] at hshape
        obtain ⟨hsp, h45, h43⟩ := plainDigits_head c cs hshape
        rw [List.dropWhile_cons, hsp]
        simp only [Bool.false_eq_true, if_false]
        simp only [scanSigned, if_neg h45, if_neg h43, scanMagnitude_plain _ hshape,
          applySign]
        rfl
  unfold sscanf_i
  rw [hscan]
  simp only
  rw [if_pos hrange]

theorem parseArgs_plain (args : List String) (h : ∀ arg ∈ args, plainDecimal arg = true) :
    parseArgs args = some (args.map base10) := by
  induction args with
  | nil => rfl
  | cons arg rest ih =>
    simp only [parseArgs, sscanf_i_plain arg (h arg (List.mem_cons_self _ _)),
      ih (fun a ha => h a (List.mem_cons_of_mem _ ha)), List.map_cons]

/-- C14, as stated, fails: for the argument `010` the element stored is 8, the value of
the text read as an octal numeral, while its base-10 value is 10. -/
theorem main_reads_leading_zero_as_octal :
    (main ["heaps", "010"]).map HState.ems = some [[8]] ∧
      sscanf_i "010" = some 8 ∧ base10 "010" = 10 := by
  decide

/-- C14, amended: when every argument after the program name is a decimal numeral without
a leading zero (optionally signed, fitting an `int`), `main` stores in `a[i]` the base-10
value of `argv[i+1]` and runs `heaps_algorithm` on these values with `n` equal to the
number of arguments after the program name. -/
theorem main_parses_plain_decimals (prog : String) (args : List String)
    (h : ∀ arg ∈ args, plainDecimal arg = true) :
    parseArgs args = some (args.map base10) ∧
      (∀ i : Nat, i < args.length →
        ∃ arg, args[i]? = some arg ∧ (args.map base10)[i]? = some (base10 arg) ∧
          sscanf_i arg = some (base10 arg)) ∧
      (args.map base10).length = args.length ∧
      main (prog :: args) = heaps_algorithm (args.map base10) args.length := by
  have hp := parseArgs_plain args h
  refine ⟨hp, ?_, List.length_map _ _, ?_⟩
  · intro i hi
    refine ⟨args[i], List.getElem?_eq_getElem hi, ?_, ?_⟩
    · rw [List.getElem?_map, List.getElem?_eq_getElem hi]; rfl
    · exact sscanf_i_plain _ (h _ (List.getElem_mem hi))
  · unfold main
    simp only [hp]

theorem main_parses_plain_decimals_witness :
    (∀ arg ∈ ["12", "-7", "0"], plainDecimal arg = true) ∧
      (parseArgs ["12", "-7", "0"] = some (["12", "-7", "0"].map base10) ∧
        (∀ i : Nat, i < ["12", "-7", "0"].length →
          ∃ arg, ["12", "-7", "0"][i]? = some arg ∧
            (["12", "-7", "0"].map base10)[i]? = some (base10 arg) ∧
            sscanf_i arg = some (base10 arg)) ∧
        (["12", "-7", "0"].map base10).length = ["12", "-7", "0"].length ∧
        main ("heaps" :: ["12", "-7", "0"]) =
          heaps_algorithm (["12", "-7", "0"].map base10) ["12", "-7", "0"].length) :=
  ⟨by decide, main_parses_plain_decimals "heaps" ["12", "-7", "0"] (by decide)⟩

end Heaps
